import Mathlib

set_option maxHeartbeats 1600000
set_option maxRecDepth 8192
set_option autoImplicit false

/-
Verification of the documentation cache-and-search subsystem of the
seagridigital repository (services/docs_manager.py, services/url_loader.py).

Modelling conventions:
- Python strings are Lean Strings; slicing s[:n] is by code points.
- Timestamps (datetime.now()) are abstracted to Nat ticks; the TTL duration
  ttl_hours is a Nat in the same units.  Each cache method takes the current
  time as an explicit argument.
- The OrderedDict self._cache is a List (String x CacheEntry) in recency
  order: the front is the least recently used entry, the back the most
  recently used.  popitem(last=False) removes the front; move_to_end moves a
  key to the back; plain assignment updates an existing key in place or
  appends a new key at the back, exactly as for a Python dict.
- A datetime object is always truthy, so the source tests of the form
  "if entry.get(...)" on the expires_at field correspond to isSome here.
- Network retrieval and HTML extraction are external capabilities: a fetch
  is parametrised by a FetchOutcome that is either the extracted,
  whitespace-cleaned page text or one of the three error classes the source
  catches (httpx.HTTPStatusError, httpx.RequestError, Exception).
-/

/-- Python slice s[:n] by code points. -/
def strTake (s : String) (n : Nat) : String := String.mk (s.data.take n)

/-- Python truthiness of an Optional[str]: None and the empty string are falsy. -/
def truthy : Option String → Bool
  | none => false
  | some s => s.length != 0

/-! ## URLCache (docs_manager.py, class URLCache) -/

/-- One value of the OrderedDict self._cache: content, expires_at, cached_at. -/
structure CacheEntry where
  content : String
  expires_at : Option Nat
  cached_at : Nat
deriving DecidableEq

/-- The URLCache object: TTL, maximum size and the ordered key/value store. -/
structure URLCache where
  ttl_hours : Nat
  max_size : Nat
  cache : List (String × CacheEntry)
deriving DecidableEq

/-- Python membership/indexing on the ordered dict: the entry stored for url. -/
def lookupEntry (l : List (String × CacheEntry)) (url : String) : Option CacheEntry :=
  (l.find? (fun p => p.1 == url)).map (fun p => p.2)

/-- Python del self._cache[url]. -/
def eraseKey (l : List (String × CacheEntry)) (url : String) : List (String × CacheEntry) :=
  l.eraseP (fun p => p.1 == url)

/-- OrderedDict.move_to_end(url): the entry for url moves to the back. -/
def moveToEnd (l : List (String × CacheEntry)) (url : String) : List (String × CacheEntry) :=
  match l.find? (fun p => p.1 == url) with
  | none => l
  | some p => eraseKey l url ++ [p]

/-- URLCache.get: absent key gives None; an entry with expires_at earlier than
now is deleted lazily and treated as absent; a surviving entry is moved to the
most-recently-used end and its content returned. -/
def URLCache.get (c : URLCache) (now : Nat) (url : String) : Option String × URLCache :=
  match lookupEntry c.cache url with
  | none => (none, c)
  | some entry =>
      match entry.expires_at with
      | some exp =>
          if now > exp then (none, { c with cache := eraseKey c.cache url })
          else (some entry.content, { c with cache := moveToEnd c.cache url })
      | none => (some entry.content, { c with cache := moveToEnd c.cache url })

/-- The _clean_expired criterion: entry.get(expires_at) and entry[expires_at] < now. -/
def isExpiredAt (now : Nat) (e : CacheEntry) : Bool :=
  match e.expires_at with
  | some t => decide (t < now)
  | none => false

/-- URLCache._clean_expired: drop every entry whose expires_at is before now. -/
def cleanExpired (now : Nat) (l : List (String × CacheEntry)) : List (String × CacheEntry) :=
  l.filter (fun p => !isExpiredAt now p.2)

/-- Python dict assignment self._cache[url] = entry: update in place when the
key exists (keeping its position in the order), else append at the back. -/
def insertOrUpdate (l : List (String × CacheEntry)) (url : String) (e : CacheEntry) :
    List (String × CacheEntry) :=
  if (l.find? (fun p => p.1 == url)).isSome then
    l.map (fun p => if p.1 == url then (p.1, e) else p)
  else l ++ [(url, e)]

/-- URLCache.set: purge expired entries, evict the front (least recently used)
entry when the purged store still holds at least max_size entries, then store
the new entry with expires_at = now + ttl_hours and cached_at = now. -/
def URLCache.set (c : URLCache) (now : Nat) (url : String) (content : String) : URLCache :=
  let cleaned := cleanExpired now c.cache
  let afterEvict := if cleaned.length ≥ c.max_size then cleaned.drop 1 else cleaned
  { c with cache := insertOrUpdate afterEvict url ⟨content, some (now + c.ttl_hours), now⟩ }

/-- URLCache.clear. -/
def URLCache.clear (c : URLCache) : URLCache := { c with cache := [] }

/-- The record returned by URLCache.get_stats. -/
structure CacheStats where
  enabled : Bool
  total_entries : Nat
  valid_entries : Nat
  expired_entries : Nat
  max_size : Nat
  ttl_hours : Nat
deriving DecidableEq

/-- The get_stats validity criterion: not entry.get(expires_at) or
entry[expires_at] > now. -/
def isValidAt (now : Nat) (e : CacheEntry) : Bool :=
  match e.expires_at with
  | some t => decide (t > now)
  | none => true

/-- URLCache.get_stats: it first runs _clean_expired (mutating the store),
then counts the remaining entries with expires_at > now as valid and the rest
as expired. -/
def URLCache.get_stats (c : URLCache) (now : Nat) : CacheStats × URLCache :=
  let cleaned := cleanExpired now c.cache
  let valid := (cleaned.filter (fun p => isValidAt now p.2)).length
  (⟨true, cleaned.length, valid, cleaned.length - valid, c.max_size, c.ttl_hours⟩,
   { c with cache := cleaned })

/-! ## fetch_url_content (docs_manager.py, DocsManager.fetch_url_content) -/

/-- Outcome of the network retrieval plus HTML extraction step: either the
extracted, whitespace-cleaned page text, or one of the three error classes
the source catches. -/
inductive FetchOutcome where
  | success (cleanedText : String)
  | httpStatusError (code : Nat)
  | requestError (msg : String)
  | otherError (msg : String)
deriving DecidableEq

/-- The truncation suffix appended by fetch_url_content (14 characters). -/
def truncSuffix : String := "... [truncado]"

/-- The try/except body of fetch_url_content: on success truncate the cleaned
text and store it in the cache (when a cache is configured); each error class
is converted to its diagnostic string with the cache untouched. -/
def fetchNetwork (cacheOpt : Option URLCache) (url : String) (maxLength : Nat)
    (outcome : FetchOutcome) (now : Nat) : String × Option URLCache :=
  match outcome with
  | .success cleaned =>
      let t := if cleaned.length > maxLength then strTake cleaned maxLength ++ truncSuffix
               else cleaned
      (t, match cacheOpt with
          | some c => some (c.set now url t)
          | none => none)
  | .httpStatusError code => ("Erro ao buscar URL: " ++ toString code, cacheOpt)
  | .requestError msg => ("Erro de conexão ao buscar URL: " ++ msg, cacheOpt)
  | .otherError msg => ("Erro ao processar URL: " ++ msg, cacheOpt)

/-- DocsManager.fetch_url_content: a truthy cached string is returned (sliced
to max_length when longer) without touching the network; otherwise the network
path runs on the cache state left by the lookup. -/
def fetch_url_content (cacheOpt : Option URLCache) (url : String) (maxLength : Nat)
    (outcome : FetchOutcome) (now : Nat) : String × Option URLCache :=
  match cacheOpt with
  | some c =>
      let r := c.get now url
      match r.1 with
      | some s =>
          if s.length != 0 then
            (if s.length > maxLength then strTake s maxLength else s, some r.2)
          else fetchNetwork (some r.2) url maxLength outcome now
      | none => fetchNetwork (some r.2) url maxLength outcome now
  | none => fetchNetwork none url maxLength outcome now

/-! ## validate_url (url_loader.py)

The regex
  r'^https?://'
  r'(?:(?:[A-Z0-9](?:[A-Z0-9-]\x7b0,61\x7d[A-Z0-9])?\.)+[A-Z]\x7b2,6\x7d\.?|'
  r'localhost|'
  r'\d\x7b1,3\x7d\.\d\x7b1,3\x7d\.\d\x7b1,3\x7d\.\d\x7b1,3\x7d)'
  r'(?::\d+)?'
  r'(?:/?|[/?]\S+)$'
with re.IGNORECASE is translated to a backtracking matcher: a Matcher maps an
input character list to every possible remainder, so bool(pattern.match(s))
is the existence of a remainder accepted by the end anchor.  Character
classes are modelled over ASCII (the source data and the claims use only
ASCII hosts). -/

def Matcher : Type := List Char → List (List Char)

/-- Match a single character satisfying p. -/
def mChar (p : Char → Bool) : Matcher := fun s =>
  match s with
  | [] => []
  | c :: t => if p c then [t] else []

/-- Match the empty pattern. -/
def mEps : Matcher := fun s => [s]

/-- Sequential composition of two patterns. -/
def mSeq (a b : Matcher) : Matcher := fun s => ((a s).map b).join

/-- Alternation of two patterns. -/
def mAlt (a b : Matcher) : Matcher := fun s => a s ++ b s

/-- The ? quantifier. -/
def mOpt (a : Matcher) : Matcher := mAlt a mEps

/-- A case-insensitive literal (the argument is given in lower case). -/
def mLitCI : List Char → Matcher
  | [] => mEps
  | c :: cs => mSeq (mChar (fun x => x.toLower == c)) (mLitCI cs)

/-- Exactly n repetitions. -/
def mRepExact (a : Matcher) : Nat → Matcher
  | 0 => mEps
  | n + 1 => mSeq a (mRepExact a n)

/-- At most n repetitions. -/
def mRepUpTo (a : Matcher) : Nat → Matcher
  | 0 => mEps
  | n + 1 => mAlt (mSeq a (mRepUpTo a n)) mEps

/-- Between lo and hi repetitions. -/
def mRepRange (a : Matcher) (lo hi : Nat) : Matcher :=
  mSeq (mRepExact a lo) (mRepUpTo a (hi - lo))

/-- Kleene star with fuel; each repetition of every starred sub-pattern of the
URL regex consumes at least one character, so fuel = input length is enough. -/
def mStarFuel (a : Matcher) : Nat → Matcher
  | 0 => mEps
  | n + 1 => fun s => s :: ((a s).map (mStarFuel a n)).join

/-- The + quantifier (sound because every repeated sub-pattern consumes). -/
def mPlus (a : Matcher) : Matcher := fun s => ((a s).map (mStarFuel a s.length)).join

/-- The class [A-Z] under IGNORECASE, over ASCII. -/
def isAsciiLetter (c : Char) : Bool :=
  (decide ('a' ≤ c) && decide (c ≤ 'z')) || (decide ('A' ≤ c) && decide (c ≤ 'Z'))

/-- The class backslash-d over ASCII. -/
def isAsciiDigit (c : Char) : Bool := decide ('0' ≤ c) && decide (c ≤ '9')

/-- The class [A-Z0-9] under IGNORECASE. -/
def isAlnumHost (c : Char) : Bool := isAsciiLetter c || isAsciiDigit c

/-- The class [A-Z0-9-] under IGNORECASE. -/
def isAlnumDash (c : Char) : Bool := isAlnumHost c || c == '-'

/-- The characters Python str.strip removes and backslash-s matches (ASCII). -/
def isSpaceChar (c : Char) : Bool :=
  c == ' ' || c == '\t' || c == '\n' || c == '\r' || c == Char.ofNat 11 || c == Char.ofNat 12

/-- The scheme part https?:// (IGNORECASE). -/
def mScheme : Matcher :=
  mSeq (mLitCI "http".data) (mSeq (mOpt (mChar (fun x => x.toLower == 's'))) (mLitCI "://".data))

/-- One domain label followed by a dot. -/
def mLabelDot : Matcher :=
  mSeq (mChar isAlnumHost)
    (mSeq (mOpt (mSeq (mRepRange (mChar isAlnumDash) 0 61) (mChar isAlnumHost)))
      (mChar (fun c => c == '.')))

/-- The dotted-hostname alternative. -/
def mDomain : Matcher :=
  mSeq (mPlus mLabelDot)
    (mSeq (mRepRange (mChar isAsciiLetter) 2 6) (mOpt (mChar (fun c => c == '.'))))

/-- The dotted-quad IPv4 alternative. -/
def mIPv4 : Matcher :=
  let oct := mRepRange (mChar isAsciiDigit) 1 3
  let dot := mChar (fun c => c == '.')
  mSeq oct (mSeq dot (mSeq oct (mSeq dot (mSeq oct (mSeq dot oct)))))

/-- The host alternation: domain, localhost, or IPv4. -/
def mHost : Matcher := mAlt mDomain (mAlt (mLitCI "localhost".data) mIPv4)

/-- The optional :port. -/
def mPort : Matcher := mOpt (mSeq (mChar (fun c => c == ':')) (mPlus (mChar isAsciiDigit)))

/-- The optional path: /? or a / or ? followed by non-space characters. -/
def mPath : Matcher :=
  mAlt (mOpt (mChar (fun c => c == '/')))
    (mSeq (mChar (fun c => c == '/' || c == '?')) (mPlus (mChar (fun c => !isSpaceChar c))))

/-- The whole URL pattern. -/
def urlMatcher : Matcher := mSeq mScheme (mSeq mHost (mSeq mPort mPath))

/-- The dollar anchor of re: end of string, or just before one final newline. -/
def acceptsEnd (rest : List Char) : Bool :=
  match rest with
  | [] => true
  | [c] => c == '\n'
  | _ => false

/-- Python str.strip(). -/
def pyStrip (s : String) : String :=
  String.mk (((s.data.dropWhile isSpaceChar).reverse.dropWhile isSpaceChar).reverse)

/-- validate_url: falsy input is rejected, otherwise the stripped string is
matched against the URL pattern.  (The isinstance check of the source is
outside this embedding: the argument type is already String.) -/
def validate_url (url : String) : Bool :=
  if url.length == 0 then false
  else (urlMatcher (pyStrip url).data).any acceptsEnd


/-! ## load_urls_from_json (url_loader.py) -/

/-- A parsed JSON value (the result of json.load). -/
inductive JValue where
  | jnull
  | jbool (b : Bool)
  | jnum (n : Int)
  | jstr (s : String)
  | jarr (items : List JValue)
  | jobj (fields : List (String × JValue))

/-- Dict lookup on a parsed JSON object; json.load keeps the last binding of a
duplicated key, hence the search from the back. -/
def jLookup (fields : List (String × JValue)) (key : String) : Option JValue :=
  (fields.reverse.find? (fun p => p.1 == key)).map (fun p => p.2)

/-- Python dict.get(key, default). -/
def jGetD (fields : List (String × JValue)) (key : String) (d : JValue) : JValue :=
  (jLookup fields key).getD d

/-- Whether a JSON value is an object (Python isinstance(v, dict)). -/
def jIsObj : JValue → Bool
  | .jobj _ => true
  | _ => false

/-- The field normalisation for topicos: the value if it is a list, else []. -/
def jTopicsField (fields : List (String × JValue)) : List JValue :=
  match jGetD fields "topicos" (.jarr []) with
  | .jarr l => l
  | _ => []

/-- A normalised tutorial entry produced by load_urls_from_json. -/
structure TutorialRec where
  titulo : JValue
  url : String
  categoria : JValue
  topicos : List JValue

/-- A normalised url entry produced by load_urls_from_json. -/
structure URLRec where
  url : String
  descricao : JValue
  categoria : JValue
  topicos : List JValue

/-- The structure load_urls_from_json returns. -/
structure LoadResult where
  tutoriais : List TutorialRec
  urls : List URLRec

/-- The body of the tutorial loop: a non-dict entry, an entry without a url
key, an entry whose url value is not a string (isinstance check inside
validate_url), or one whose url fails validate_url is dropped; a survivor is
normalised with defaults for titulo, categoria and topicos. -/
def processTutorial (v : JValue) : Option TutorialRec :=
  match v with
  | .jobj fields =>
      match jLookup fields "url" with
      | some (.jstr u) =>
          if validate_url u then
            some { titulo := jGetD fields "titulo" (.jstr "Sem título"),
                   url := u,
                   categoria := jGetD fields "categoria" (.jstr ""),
                   topicos := jTopicsField fields }
          else none
      | some _ => none
      | none => none
  | _ => none

/-- The body of the urls loop, analogous with a descricao default. -/
def processUrlItem (v : JValue) : Option URLRec :=
  match v with
  | .jobj fields =>
      match jLookup fields "url" with
      | some (.jstr u) =>
          if validate_url u then
            some { url := u,
                   descricao := jGetD fields "descricao" (.jstr ""),
                   categoria := jGetD fields "categoria" (.jstr ""),
                   topicos := jTopicsField fields }
          else none
      | some _ => none
      | none => none
  | _ => none

/-- load_urls_from_json.  The argument none models a missing file, a JSON
parse error, or any other read error (every such path returns the default
structure); some j is the parsed document.  A non-object document yields the
default; the tutoriais and urls fields default to [] when absent or not
lists, and each entry runs through the loop body above. -/
def load_urls_from_json (file : Option JValue) : LoadResult :=
  match file with
  | none => { tutoriais := [], urls := [] }
  | some data =>
      match data with
      | .jobj fields =>
          let tutsRaw := match jGetD fields "tutoriais" (.jarr []) with
                         | .jarr l => l
                         | _ => []
          let urlsRaw := match jGetD fields "urls" (.jarr []) with
                         | .jarr l => l
                         | _ => []
          { tutoriais := tutsRaw.filterMap processTutorial,
            urls := urlsRaw.filterMap processUrlItem }
      | _ => { tutoriais := [], urls := [] }

/-! ## get_document (docs_manager.py, DocsManager.get_document)

The docs/md and docs/pdf trees are modelled as association lists in directory
iteration order: each category directory carries its files as (stem, content)
pairs, where for a pdf the content is the text its extraction would produce.
pdfLib tells whether a PDF extraction library (PyPDF2 or pdfplumber) is
importable; when neither is, the source returns None for pdf requests. -/

structure DocsFS where
  mdCats : List (String × List (String × String))
  pdfCats : List (String × List (String × String))
  pdfLib : Bool
deriving DecidableEq

/-- Whether a category directory holds a document with the given stem. -/
def dirHas (name : String) (files : List (String × String)) : Bool :=
  (files.find? (fun f => f.1 == name)).isSome

/-- Read the document with the given stem from a category directory. -/
def readIn (files : List (String × String)) (name : String) : Option String :=
  (files.find? (fun f => f.1 == name)).map (fun f => f.2)

/-- The category-omitted scan: the first directory containing the document. -/
def findDocDir (cats : List (String × List (String × String))) (name : String) :
    Option (String × List (String × String)) :=
  cats.find? (fun c => dirHas name c.2)

/-- DocsManager.get_document.  A truthy category selects exactly one path;
otherwise every category directory is scanned in order and the first match is
read; an unknown doc_type, or no match, gives None.  For pdf the read
succeeds only when an extraction library is available. -/
def get_document (fs : DocsFS) (doc_name : String) (doc_type : String)
    (category : Option String) : Option String :=
  if doc_type == "md" then
    if truthy category then
      match fs.mdCats.find? (fun c => c.1 == category.getD "") with
      | some c => readIn c.2 doc_name
      | none => none
    else
      match findDocDir fs.mdCats doc_name with
      | some c => readIn c.2 doc_name
      | none => none
  else if doc_type == "pdf" then
    if truthy category then
      match fs.pdfCats.find? (fun c => c.1 == category.getD "") with
      | some c => if fs.pdfLib then readIn c.2 doc_name else none
      | none => none
    else
      match findDocDir fs.pdfCats doc_name with
      | some c => if fs.pdfLib then readIn c.2 doc_name else none
      | none => none
  else none

/-! ## search_documentation (docs_manager.py, DocsManager.search_documentation) -/

/-- One value of DOCUMENTATION_MAP. -/
structure CategoryInfo where
  documentation : List (String × String)
  topics : List String
  common_issues : List String
deriving DecidableEq

/-- The static knowledge base DOCUMENTATION_MAP, in insertion order. -/
def DOCUMENTATION_MAP : List (String × CategoryInfo) :=
  [("beneficiarios",
    { documentation := [("manual", "Manual de Gestão de Beneficiários"),
                        ("legislacao", "Legislação sobre Beneficiários"),
                        ("normativas", "Normativas do SEAGRI")],
      topics := ["cadastro", "doações", "empréstimos", "implementos agrícolas", "solicitantes"],
      common_issues := ["cadastro incompleto", "validação de documentos",
                        "aprovação de solicitações"] }),
   ("conselho_rural",
    { documentation := [("manual", "Manual de Gestão de Conselhos Rurais"),
                        ("legislacao", "Legislação sobre Conselhos Rurais"),
                        ("normativas", "Normativas do SEAGRI")],
      topics := ["gestão", "reuniões", "deliberações", "membros", "atas"],
      common_issues := ["quórum insuficiente", "validação de deliberações",
                        "registro de atas"] }),
   ("convenio_cooperativas",
    { documentation := [("manual", "Manual de Gestão de Convênios"),
                        ("legislacao", "Legislação sobre Convênios"),
                        ("normativas", "Normativas do SEAGRI")],
      topics := ["convênios", "associações", "cooperativas", "parcerias", "contratos"],
      common_issues := ["validação de documentos", "renovação de convênios",
                        "prestação de contas"] }),
   ("fundo_rural",
    { documentation := [("manual", "Manual do Fundo de Desenvolvimento Rural"),
                        ("legislacao", "Legislação sobre Fundo Rural"),
                        ("normativas", "Normativas do SEAGRI")],
      topics := ["crédito rural", "financiamento", "recursos", "gestão financeira", "aplicação"],
      common_issues := ["aprovação de crédito", "documentação necessária",
                        "prazos de pagamento"] }),
   ("maquinario",
    { documentation := [("manual", "Manual de Controle de Maquinário"),
                        ("legislacao", "Legislação sobre Maquinário"),
                        ("normativas", "Normativas do SEAGRI")],
      topics := ["controle", "manutenção", "estradas rurais", "serviços", "equipamentos"],
      common_issues := ["manutenção preventiva", "disponibilidade de equipamentos",
                        "agendamento de serviços"] })]

/-- A search result dict; fields absent from a given result kind are none. -/
structure SearchResult where
  tipo : String
  categoria : String
  titulo : String
  url : Option String
  topicos : Option (List String)
  arquivo : Option String
  relevancia : String
  fonte : String
deriving DecidableEq

/-- The deduplication key (result.get(tipo), result.get(titulo),
result.get(url, empty)). -/
def resultKey (r : SearchResult) : String × String × String :=
  (r.tipo, r.titulo, r.url.getD "")

/-- Python str.lower() over ASCII (every comparison in the repository data is
on already-lower-case or ASCII text). -/
def pyLower (s : String) : String := String.mk (s.data.map Char.toLower)

/-- Prefix test used by the substring check. -/
def leadMatch : List Char → List Char → Bool
  | [], _ => true
  | _ :: _, [] => false
  | a :: as, b :: bs => a == b && leadMatch as bs

/-- Python needle in hay on character lists. -/
def subIn (n : List Char) : List Char → Bool
  | [] => n.isEmpty
  | c :: t => leadMatch n (c :: t) || subIn n t

/-- Python needle in hay on strings. -/
def pyIn (needle hay : String) : Bool := subIn needle.data hay.data

/-- Python truthiness of the category argument inside comparisons
(category could be None or the empty string, both falsy). -/
def catMismatch (category : Option String) (cat : String) : Bool :=
  match category with
  | none => false
  | some c => c.length != 0 && cat != c

/-- The knowledge-base pass: per category (unless filtered out), the matching
topics then the matching common issues. -/
def kbResults (ql : String) (category : Option String) : List SearchResult :=
  (DOCUMENTATION_MAP.map (fun p =>
    if catMismatch category p.1 then []
    else
      (p.2.topics.filter (fun t => pyIn ql (pyLower t))).map (fun t =>
        { tipo := "topico", categoria := p.1, titulo := t, url := none, topicos := none,
          arquivo := none, relevancia := "alta", fonte := "base_conhecimento" })
      ++ (p.2.common_issues.filter (fun t => pyIn ql (pyLower t))).map (fun t =>
        { tipo := "problema_comum", categoria := p.1, titulo := t, url := none, topicos := none,
          arquivo := none, relevancia := "alta", fonte := "base_conhecimento" }))).join

/-- A tutorial as returned by get_tutorials, with the string fields the search
reads. -/
structure TutorialItem where
  titulo : String
  url : String
  categoria : String
  topicos : List String
deriving DecidableEq

/-- The tutorial match criterion. -/
def tutMatches (ql : String) (t : TutorialItem) : Bool :=
  pyIn ql (pyLower t.titulo) || t.topicos.any (fun tp => pyIn ql (pyLower tp))

/-- The tutorial pass with its seen_urls set: a url already seen is skipped;
a match is emitted and its url recorded. -/
def tutResultsAux (ql : String) (seen : List String) : List TutorialItem → List SearchResult
  | [] => []
  | t :: rest =>
      if t.url ∈ seen then tutResultsAux ql seen rest
      else if tutMatches ql t then
        { tipo := "tutorial", categoria := t.categoria, titulo := t.titulo, url := some t.url,
          topicos := some t.topicos, arquivo := none, relevancia := "alta", fonte := "tutoriais" }
        :: tutResultsAux ql (t.url :: seen) rest
      else tutResultsAux ql seen rest

/-- The document pass over one category directory: a file whose content is
truthy and contains the query is emitted. -/
def docDirResults (ql : String) (cat : String) (files : List (String × String)) :
    List SearchResult :=
  files.filterMap (fun f =>
    if f.2.length != 0 && pyIn ql (pyLower f.2) then
      some { tipo := "documento", categoria := cat, titulo := f.1, url := none, topicos := none,
             arquivo := some (cat ++ "/" ++ f.1 ++ ".md"), relevancia := "media",
             fonte := "documentos_md" }
    else none)

/-- The document pass: a truthy category scans its directory when it exists,
otherwise every category directory is scanned in order. -/
def docResults (ql : String) (category : Option String)
    (mdCats : List (String × List (String × String))) : List SearchResult :=
  if truthy category then
    match mdCats.find? (fun p => p.1 == category.getD "") with
    | some p => docDirResults ql (category.getD "") p.2
    | none => []
  else (mdCats.map (fun p => docDirResults ql p.1 p.2)).join

/-- The undeduplicated result list of the three passes, in pass order. -/
def rawResults (query : String) (category : Option String)
    (tutorials : List TutorialItem) (mdCats : List (String × List (String × String))) :
    List SearchResult :=
  kbResults (pyLower query) category
    ++ tutResultsAux (pyLower query) [] tutorials
    ++ docResults (pyLower query) category mdCats

/-- The final loop of search_documentation: walk the results, keep the first
occurrence of each key, stop as soon as 10 results were kept.  The Nat
argument is the remaining budget (10 at the top call). -/
def dedupCapAux (seen : List (String × String × String)) :
    Nat → List SearchResult → List SearchResult
  | _, [] => []
  | 0, _ :: _ => []
  | n + 1, r :: rest =>
      if resultKey r ∈ seen then dedupCapAux seen (n + 1) rest
      else
        match n with
        | 0 => [r]
        | m + 1 => r :: dedupCapAux (resultKey r :: seen) (m + 1) rest

/-- DocsManager.search_documentation; tutorials stands for the output of
self.get_tutorials(category) and mdCats for the docs/md tree. -/
def search_documentation (query : String) (category : Option String)
    (tutorials : List TutorialItem) (mdCats : List (String × List (String × String))) :
    List SearchResult :=
  dedupCapAux [] 10 (rawResults query category tutorials mdCats)


/-! ## Helper lemmas on the ordered-map operations -/

theorem find?_first {α : Type} (p : α → Bool) (pre : List α) (c : α) (post : List α)
    (hpre : ∀ x ∈ pre, p x = false) (hc : p c = true) :
    (pre ++ c :: post).find? p = some c := by
  induction pre with
  | nil => simp [List.find?_cons, hc]
  | cons a t ih =>
    have ha := hpre a (by simp)
    simpa [List.find?_cons, ha] using ih (fun x hx => hpre x (by simp [hx]))

theorem eraseP_first {α : Type} (p : α → Bool) (pre : List α) (c : α) (post : List α)
    (hpre : ∀ x ∈ pre, p x = false) (hc : p c = true) :
    (pre ++ c :: post).eraseP p = pre ++ post := by
  induction pre with
  | nil => simp [List.eraseP_cons, hc]
  | cons a t ih =>
    have ha := hpre a (by simp)
    simpa [List.eraseP_cons, ha] using ih (fun x hx => hpre x (by simp [hx]))

theorem keys_unique_split (pre post : List (String × CacheEntry)) (url : String)
    (e0 : CacheEntry)
    (hnd : ((pre ++ (url, e0) :: post).map Prod.fst).Nodup) :
    (∀ x ∈ pre, (x.1 == url) = false) ∧ (∀ x ∈ post, (x.1 == url) = false) := by
  rw [List.map_append, List.map_cons] at hnd
  rcases List.nodup_append.mp hnd with ⟨h1, h2, hdisj⟩
  constructor
  · intro x hx
    have hne : x.1 ≠ url := by
      intro he
      exact hdisj (List.mem_map_of_mem Prod.fst hx) (by rw [he]; exact List.mem_cons_self _ _)
    simp [hne]
  · intro x hx
    have hu : url ∉ post.map Prod.fst := (List.nodup_cons.mp h2).1
    have hne : x.1 ≠ url := fun he => hu (he ▸ List.mem_map_of_mem Prod.fst hx)
    simp [hne]

theorem lookupEntry_eq_none (l : List (String × CacheEntry)) (url : String)
    (h : ∀ p ∈ l, p.1 ≠ url) : lookupEntry l url = none := by
  have hf : l.find? (fun p => p.1 == url) = none := by
    rw [List.find?_eq_none]
    intro x hx
    simp [h x hx]
  simp [lookupEntry, hf]

theorem lookupEntry_eq_some_of_mem (l : List (String × CacheEntry)) (url : String)
    (e : CacheEntry) (hnd : (l.map Prod.fst).Nodup) (hm : (url, e) ∈ l) :
    lookupEntry l url = some e := by
  obtain ⟨pre, post, rfl⟩ := List.append_of_mem hm
  obtain ⟨hpre, _⟩ := keys_unique_split pre post url e hnd
  unfold lookupEntry
  rw [find?_first _ pre (url, e) post hpre (by simp)]
  rfl

theorem lookupEntry_append (l1 l2 : List (String × CacheEntry)) (url : String)
    (h : lookupEntry l1 url = none) :
    lookupEntry (l1 ++ l2) url = lookupEntry l2 url := by
  induction l1 with
  | nil => simp
  | cons a t ih =>
    by_cases ha : (a.1 == url) = true
    · exfalso
      unfold lookupEntry at h
      rw [List.find?_cons, ha] at h
      simp at h
    · have ha2 : (a.1 == url) = false := by simpa using ha
      unfold lookupEntry at h ⊢
      rw [List.find?_cons, ha2] at h
      rw [List.cons_append, List.find?_cons, ha2]
      exact ih h

theorem lookupEntry_eraseKey_self (l : List (String × CacheEntry)) (url : String)
    (hnd : (l.map Prod.fst).Nodup) :
    lookupEntry (eraseKey l url) url = none := by
  induction l with
  | nil => rfl
  | cons a t ih =>
    rw [List.map_cons] at hnd
    rcases List.nodup_cons.mp hnd with ⟨hna, hndt⟩
    by_cases ha : (a.1 == url) = true
    · have he : a.1 = url := by simpa using ha
      unfold eraseKey
      simp only [List.eraseP_cons, ha, cond_true]
      apply lookupEntry_eq_none
      intro p hp hc
      apply hna
      rw [he, ← hc]
      exact List.mem_map_of_mem Prod.fst hp
    · have ha2 : (a.1 == url) = false := by simpa using ha
      unfold eraseKey at ih ⊢
      simp only [List.eraseP_cons, ha2, cond_false]
      unfold lookupEntry at ih ⊢
      rw [List.find?_cons, ha2]
      exact ih hndt

theorem mem_of_mem_eraseKey {l : List (String × CacheEntry)} {url : String}
    {p : String × CacheEntry} (h : p ∈ eraseKey l url) : p ∈ l :=
  (List.eraseP_sublist l).subset h

theorem mem_of_mem_moveToEnd {l : List (String × CacheEntry)} {url : String}
    {p : String × CacheEntry} (h : p ∈ moveToEnd l url) : p ∈ l := by
  unfold moveToEnd at h
  cases hf : l.find? (fun q => q.1 == url) with
  | none => rw [hf] at h; exact h
  | some q =>
    rw [hf] at h
    rcases List.mem_append.mp h with h1 | h2
    · exact mem_of_mem_eraseKey h1
    · have : p = q := by simpa using h2
      exact this ▸ List.mem_of_find?_eq_some hf

theorem lookupEntry_moveToEnd_self (l : List (String × CacheEntry)) (url : String)
    (hnd : (l.map Prod.fst).Nodup) :
    lookupEntry (moveToEnd l url) url = lookupEntry l url := by
  unfold moveToEnd
  cases hf : l.find? (fun p => p.1 == url) with
  | none => rfl
  | some p =>
    have hp : (p.1 == url) = true := by simpa using List.find?_some hf
    rw [lookupEntry_append _ _ _ (lookupEntry_eraseKey_self l url hnd)]
    unfold lookupEntry
    rw [List.find?_cons, hp, hf]

theorem cleanExpired_eq_self (now : Nat) (l : List (String × CacheEntry))
    (h : ∀ p ∈ l, isExpiredAt now p.2 = false) : cleanExpired now l = l := by
  unfold cleanExpired
  apply List.filter_eq_self.mpr
  intro a ha
  simp [h a ha]

theorem lookupEntry_map_update (l : List (String × CacheEntry)) (url : String)
    (e : CacheEntry) :
    lookupEntry (l.map (fun p => if p.1 == url then (p.1, e) else p)) url =
      (lookupEntry l url).map (fun _ => e) := by
  induction l with
  | nil => rfl
  | cons a t ih =>
    by_cases ha : (a.1 == url) = true
    · unfold lookupEntry at ih ⊢
      simp only [List.map_cons, ha, if_pos]
      rw [List.find?_cons, List.find?_cons]
      simp [ha]
    · have ha2 : (a.1 == url) = false := by simpa using ha
      unfold lookupEntry at ih ⊢
      simp only [List.map_cons, ha2, if_neg, Bool.false_eq_true, not_false_iff]
      rw [List.find?_cons, List.find?_cons]
      simp only [ha2]
      exact ih

theorem lookupEntry_insertOrUpdate_self (l : List (String × CacheEntry)) (url : String)
    (e : CacheEntry) : lookupEntry (insertOrUpdate l url e) url = some e := by
  unfold insertOrUpdate
  cases hf : l.find? (fun p => p.1 == url) with
  | none =>
    simp only [hf, Option.isSome_none, Bool.false_eq_true, if_neg, not_false_iff]
    rw [lookupEntry_append l [(url, e)] url (by unfold lookupEntry; rw [hf]; rfl)]
    unfold lookupEntry
    rw [List.find?_cons]
    simp
  | some q =>
    simp only [hf, Option.isSome_some, if_pos]
    rw [lookupEntry_map_update]
    unfold lookupEntry
    rw [hf]
    rfl

theorem key_mem_insertOrUpdate (l : List (String × CacheEntry)) (url : String)
    (e : CacheEntry) (A : String) (h : A ∈ l.map Prod.fst) :
    A ∈ (insertOrUpdate l url e).map Prod.fst := by
  unfold insertOrUpdate
  split
  · have heq : (l.map (fun p => if p.1 == url then (p.1, e) else p)).map Prod.fst =
        l.map Prod.fst := by
      rw [List.map_map]
      apply List.map_congr_left
      intro p _
      show (if p.1 == url then (p.1, e) else p).1 = p.1
      split <;> rfl
    rw [heq]; exact h
  · rw [List.map_append]
    exact List.mem_append_left _ h

theorem lookupEntry_ne_none_of_key_mem (l : List (String × CacheEntry)) (A : String)
    (h : A ∈ l.map Prod.fst) : lookupEntry l A ≠ none := by
  obtain ⟨p, hp, rfl⟩ := List.mem_map.mp h
  intro hc
  unfold lookupEntry at hc
  cases hf : l.find? (fun q => q.1 == p.1) with
  | some q => rw [hf] at hc; simp at hc
  | none =>
    rw [List.find?_eq_none] at hf
    exact absurd (by simp : (p.1 == p.1) = true) (by simpa using hf p hp)

theorem insertOrUpdate_length (l : List (String × CacheEntry)) (url : String)
    (e : CacheEntry) : (insertOrUpdate l url e).length ≤ l.length + 1 := by
  unfold insertOrUpdate
  split
  · simp [Nat.le_succ]
  · simp

/-! ## Claim theorems -/

/-- C3: every entry stored by URLCache.set has expires_at = cached_at +
ttl_hours (third conjunct: the entry just stored at time now carries
expires_at = now + ttl and cached_at = now); on a well-formed cache, get
returns the stored content exactly when now has not passed cached_at + ttl,
and once it has, get returns none and removes the entry lazily. -/
theorem c3_cache_ttl (c : URLCache) (now : Nat) (url : String) (e : CacheEntry)
    (content : String)
    (hwf : ∀ p ∈ c.cache, p.2.expires_at = some (p.2.cached_at + c.ttl_hours))
    (hnd : (c.cache.map Prod.fst).Nodup)
    (hm : (url, e) ∈ c.cache) :
    ((c.get now url).1 = some e.content ↔ now ≤ e.cached_at + c.ttl_hours) ∧
    (e.cached_at + c.ttl_hours < now →
      (c.get now url).1 = none ∧ lookupEntry ((c.get now url).2).cache url = none) ∧
    lookupEntry ((c.set now url content).cache) url =
      some ⟨content, some (now + c.ttl_hours), now⟩ := by
  have hl : lookupEntry c.cache url = some e := lookupEntry_eq_some_of_mem c.cache url e hnd hm
  have hexp : e.expires_at = some (e.cached_at + c.ttl_hours) := hwf (url, e) hm
  have hset : lookupEntry ((c.set now url content).cache) url =
      some ⟨content, some (now + c.ttl_hours), now⟩ := by
    unfold URLCache.set
    exact lookupEntry_insertOrUpdate_self _ url _
  obtain ⟨econt, eexp, ecached⟩ := e
  have hexp2 : eexp = some (ecached + c.ttl_hours) := hexp
  subst hexp2
  have hget : c.get now url =
      if now > ecached + c.ttl_hours then
        (none, { c with cache := eraseKey c.cache url })
      else (some econt, { c with cache := moveToEnd c.cache url }) := by
    unfold URLCache.get
    rw [hl]
  refine ⟨?_, ?_, hset⟩
  · rw [hget]
    by_cases h : now > ecached + c.ttl_hours
    · rw [if_pos h]
      show (none : Option String) = some econt ↔ now ≤ ecached + c.ttl_hours
      exact ⟨fun hc => Option.noConfusion hc, fun hle => absurd hle (by omega)⟩
    · rw [if_neg h]
      show some econt = some econt ↔ now ≤ ecached + c.ttl_hours
      exact ⟨fun _ => by omega, fun _ => rfl⟩
  · intro hlt
    have hlt2 : ecached + c.ttl_hours < now := hlt
    rw [hget, if_pos (by omega : now > ecached + c.ttl_hours)]
    exact ⟨rfl, lookupEntry_eraseKey_self c.cache url hnd⟩

/-- C3 witness: a concrete entry stored at time 0 with ttl 10 is returned at
time 3 and is absent at time 11. -/
theorem c3_cache_ttl_witness :
    ((URLCache.mk 10 5 [("u", ⟨"x", some 10, 0⟩)]).get 3 "u").1 = some "x" ∧
    ((URLCache.mk 10 5 [("u", ⟨"x", some 10, 0⟩)]).get 11 "u").1 = none := by
  have h3 := c3_cache_ttl (URLCache.mk 10 5 [("u", ⟨"x", some 10, 0⟩)]) 3 "u"
    ⟨"x", some 10, 0⟩ "y" (by decide) (by decide) (by decide)
  have h11 := c3_cache_ttl (URLCache.mk 10 5 [("u", ⟨"x", some 10, 0⟩)]) 11 "u"
    ⟨"x", some 10, 0⟩ "y" (by decide) (by decide) (by decide)
  exact ⟨h3.1.mpr (by decide), (h11.2.1 (by decide)).1⟩

/-- C2 counterexample: get_stats is not read-only: on a cache holding a
single entry whose expires_at is in the past, get_stats deletes it, so the
resulting cache differs from the original (the claim asserts the cache is
left completely unchanged). -/
theorem c2_counterexample :
    ((URLCache.mk 1 10 [("u", ⟨"x", some 3, 2⟩)]).get_stats 5).2 ≠
      URLCache.mk 1 10 [("u", ⟨"x", some 3, 2⟩)] := by decide

/-- C2 amended: get_stats first performs the same expired sweep as set
(removing every entry with expires_at < now, a mutation of the store), then
counts the remaining entries with expires_at > now (or without expiry) as
valid and the rest as expired; valid and expired sum to the reported total
and no expired-before-now entry survives the call. -/
theorem c2_amended (c : URLCache) (now : Nat) :
    ((c.get_stats now).2).cache = cleanExpired now c.cache ∧
    (c.get_stats now).1.total_entries = (cleanExpired now c.cache).length ∧
    (c.get_stats now).1.valid_entries =
      ((cleanExpired now c.cache).filter (fun p => isValidAt now p.2)).length ∧
    (c.get_stats now).1.valid_entries + (c.get_stats now).1.expired_entries =
      (c.get_stats now).1.total_entries ∧
    ∀ p ∈ ((c.get_stats now).2).cache, isExpiredAt now p.2 = false := by
  refine ⟨rfl, rfl, rfl, ?_, ?_⟩
  · show ((cleanExpired now c.cache).filter (fun p => isValidAt now p.2)).length +
      ((cleanExpired now c.cache).length -
        ((cleanExpired now c.cache).filter (fun p => isValidAt now p.2)).length) =
      (cleanExpired now c.cache).length
    have := List.length_filter_le (fun p => isValidAt now p.2) (cleanExpired now c.cache)
    omega
  · intro p hp
    have hp2 : p ∈ c.cache.filter (fun q => !isExpiredAt now q.2) := hp
    have := List.of_mem_filter hp2
    simpa using this

/-- C6: validate_url accepts the three specified well-formed URLs and rejects
the three specified non-URLs; it is a total Bool-valued function of its
String argument by construction, so it can raise nothing. -/
theorem c6_validate_url :
    validate_url "https://example.com" = true ∧
    validate_url "http://localhost:8080/path" = true ∧
    validate_url "https://192.168.1.1" = true ∧
    validate_url "ftp://x.com" = false ∧
    validate_url "not a url" = false ∧
    validate_url "" = false := by
  exact ⟨by decide, by decide, by decide, by decide, by decide, by decide⟩

theorem strData_append (s t : String) : (s ++ t).data = s.data ++ t.data := rfl

theorem strTake_length (s : String) (n : Nat) : (strTake s n).length = min n s.length := by
  show (s.data.take n).length = min n s.data.length
  exact List.length_take n s.data

theorem strLen_append (s t : String) : (s ++ t).length = s.length + t.length := by
  show (s.data ++ t.data).length = s.data.length + t.data.length
  exact List.length_append s.data t.data

/-- C1 counterexample: fetching a 200-character page with max_length = 50
returns 64 characters (the 50-character prefix plus the 14-character
truncation marker appended after the slice), not exactly 50 characters; and
a second fetch of the same URL returns the 50-character prefix without the
marker, which is not identical to the first result (though it does come from
the cache: the result is the same even though the network outcome is now an
error). -/
theorem c1_counterexample :
    (fetch_url_content (some ⟨1, 1000, []⟩) "u" 50
        (.success (String.mk (List.replicate 200 'a'))) 0).1.length = 64 ∧
    (fetch_url_content
        (fetch_url_content (some ⟨1, 1000, []⟩) "u" 50
          (.success (String.mk (List.replicate 200 'a'))) 0).2 "u" 50
        (.requestError "down") 0).1 = String.mk (List.replicate 50 'a') ∧
    (fetch_url_content
        (fetch_url_content (some ⟨1, 1000, []⟩) "u" 50
          (.success (String.mk (List.replicate 200 'a'))) 0).2 "u" 50
        (.requestError "down") 0).1 ≠
      (fetch_url_content (some ⟨1, 1000, []⟩) "u" 50
        (.success (String.mk (List.replicate 200 'a'))) 0).1 := by
  refine ⟨by decide, by decide, by decide⟩

/-- C1 amended: when the extracted page text is longer than max_length, the
first fetch returns the first max_length characters followed by the
14-character truncation marker (max_length + 14 characters in total, ending
in the marker), and a second fetch of the same URL with the same max_length
within the TTL returns from the cache the first max_length characters of the
cached string - the truncated text without the marker - and does so whatever
the network outcome of the second call is (no second retrieval). -/
theorem c1_amended (ttl maxSize : Nat) (url text : String) (maxLen now now2 : Nat)
    (outcome2 : FetchOutcome)
    (h1 : maxLen < text.length) (h2 : 1 ≤ maxSize) (h3 : now2 ≤ now + ttl) :
    (fetch_url_content (some ⟨ttl, maxSize, []⟩) url maxLen (.success text) now).1 =
      strTake text maxLen ++ truncSuffix ∧
    (fetch_url_content (some ⟨ttl, maxSize, []⟩) url maxLen (.success text) now).1.length =
      maxLen + 14 ∧
    (fetch_url_content
        (fetch_url_content (some ⟨ttl, maxSize, []⟩) url maxLen (.success text) now).2
        url maxLen outcome2 now2).1 = strTake text maxLen := by
  have htlen : (strTake text maxLen ++ truncSuffix).length = maxLen + 14 := by
    rw [strLen_append, strTake_length, Nat.min_eq_left (Nat.le_of_lt h1)]
    have h14 : truncSuffix.length = 14 := rfl
    rw [h14]
  have hset0 : URLCache.set ⟨ttl, maxSize, []⟩ now url (strTake text maxLen ++ truncSuffix) =
      ⟨ttl, maxSize, [(url, ⟨strTake text maxLen ++ truncSuffix, some (now + ttl), now⟩)]⟩ := by
    unfold URLCache.set
    simp only [cleanExpired, List.filter_nil, List.length_nil]
    rw [if_neg (show ¬ ((0 : Nat) ≥ maxSize) by omega)]
    rfl
  have hmain : fetch_url_content (some ⟨ttl, maxSize, []⟩) url maxLen (.success text) now =
      (strTake text maxLen ++ truncSuffix,
       some ⟨ttl, maxSize,
         [(url, ⟨strTake text maxLen ++ truncSuffix, some (now + ttl), now⟩)]⟩) := by
    show fetchNetwork (some ⟨ttl, maxSize, []⟩) url maxLen (.success text) now = _
    simp only [fetchNetwork]
    rw [if_pos (show text.length > maxLen from h1)]
    rw [hset0]
  refine ⟨?_, ?_, ?_⟩
  · rw [hmain]
  · rw [hmain]; exact htlen
  · rw [hmain]
    have hlook : lookupEntry
        [(url, (⟨strTake text maxLen ++ truncSuffix, some (now + ttl), now⟩ : CacheEntry))]
        url = some ⟨strTake text maxLen ++ truncSuffix, some (now + ttl), now⟩ := by
      unfold lookupEntry
      rw [List.find?_cons]
      simp
    have hget : (URLCache.mk ttl maxSize
          [(url, ⟨strTake text maxLen ++ truncSuffix, some (now + ttl), now⟩)]).get now2 url =
        (some (strTake text maxLen ++ truncSuffix),
         { ttl_hours := ttl, max_size := maxSize,
           cache := moveToEnd
             [(url, ⟨strTake text maxLen ++ truncSuffix, some (now + ttl), now⟩)] url }) := by
      unfold URLCache.get
      simp only [hlook]
      rw [if_neg (show ¬ now2 > now + ttl by omega)]
    simp only [fetch_url_content]
    rw [hget]
    have hna : ((strTake text maxLen ++ truncSuffix).length != 0) = true := by
      rw [htlen]; simp
    have hgt : (strTake text maxLen ++ truncSuffix).length > maxLen := by
      rw [htlen]; omega
    simp only [hna, if_true, if_pos hgt]
    show strTake (strTake text maxLen ++ truncSuffix) maxLen = strTake text maxLen
    unfold strTake
    rw [strData_append]
    have hdl : (String.mk (text.data.take maxLen)).data = text.data.take maxLen := rfl
    rw [hdl]
    have hlen : (text.data.take maxLen).length = maxLen := by
      rw [List.length_take]
      exact Nat.min_eq_left (Nat.le_of_lt h1)
    rw [List.take_append_eq_append_take, hlen, Nat.sub_self, List.take_zero,
      List.append_nil, List.take_take, Nat.min_self]

/-- C1 amended witness: a 8-character page fetched with max_length = 3. -/
theorem c1_amended_witness :
    (fetch_url_content (some ⟨1, 5, []⟩) "u" 3 (.success "abcdefgh") 0).1 =
      "abc" ++ truncSuffix ∧
    (fetch_url_content
        (fetch_url_content (some ⟨1, 5, []⟩) "u" 3 (.success "abcdefgh") 0).2
        "u" 3 (.otherError "x") 1).1 = "abc" := by
  have h := c1_amended 1 5 "u" "abcdefgh" 3 0 1 (.otherError "x")
    (by decide) (by decide) (by decide)
  exact ⟨h.1, h.2.2⟩

/-- C4 counterexample: with max_size = 1, the entry A is returned by get
(making it the most recently accessed entry) and is nevertheless the one
evicted by the immediately following insertion of the fresh key B. -/
theorem c4_counterexample :
    (((URLCache.set ⟨10, 1, []⟩ 0 "A" "a").get 0 "A").1 = some "a") ∧
    lookupEntry ((((URLCache.set ⟨10, 1, []⟩ 0 "A" "a").get 0 "A").2).set 0 "B" "b").cache
      "A" = none := by
  exact ⟨by decide, by decide⟩

/-- Successive URLCache.set calls at a single instant. -/
def insertAll (now : Nat) (pairs : List (String × String)) (c : URLCache) : URLCache :=
  pairs.foldl (fun acc p => acc.set now p.1 p.2) c

theorem insertAll_fresh (now : Nat) (pairs : List (String × String)) (c : URLCache)
    (hfresh : ∀ p ∈ c.cache, isExpiredAt now p.2 = false)
    (hnd : (pairs.map Prod.fst).Nodup)
    (hnew : ∀ q ∈ pairs, ∀ p ∈ c.cache, p.1 ≠ q.1)
    (hroom : c.cache.length + pairs.length ≤ c.max_size) :
    insertAll now pairs c =
      ⟨c.ttl_hours, c.max_size,
       c.cache ++ pairs.map (fun q => (q.1, ⟨q.2, some (now + c.ttl_hours), now⟩))⟩ := by
  induction pairs generalizing c with
  | nil =>
    show c = _
    cases c
    simp
  | cons q rest ih =>
    have hfnone : c.cache.find? (fun p => p.1 == q.1) = none := by
      rw [List.find?_eq_none]
      intro x hx
      simp [hnew q (List.mem_cons_self _ _) x hx]
    have hstep : c.set now q.1 q.2 = ⟨c.ttl_hours, c.max_size,
        c.cache ++ [(q.1, ⟨q.2, some (now + c.ttl_hours), now⟩)]⟩ := by
      simp only [URLCache.set]
      rw [cleanExpired_eq_self now c.cache hfresh]
      rw [if_neg (show ¬ (c.cache.length ≥ c.max_size) by
        have h1 := hroom
        simp only [List.length_cons] at h1
        omega)]
      simp [insertOrUpdate, hfnone]
    have hf2 : ∀ p ∈ (URLCache.mk c.ttl_hours c.max_size
        (c.cache ++ [(q.1, ⟨q.2, some (now + c.ttl_hours), now⟩)])).cache,
        isExpiredAt now p.2 = false := by
      intro p hp
      rcases List.mem_append.mp hp with h | h
      · exact hfresh p h
      · have hpq : p = (q.1, ⟨q.2, some (now + c.ttl_hours), now⟩) := by simpa using h
        subst hpq
        simp only [isExpiredAt, decide_eq_false_iff_not]
        omega
    have hnd2 : (rest.map Prod.fst).Nodup := by
      rw [List.map_cons] at hnd
      exact (List.nodup_cons.mp hnd).2
    have hnew2 : ∀ r ∈ rest, ∀ p ∈ (URLCache.mk c.ttl_hours c.max_size
        (c.cache ++ [(q.1, ⟨q.2, some (now + c.ttl_hours), now⟩)])).cache, p.1 ≠ r.1 := by
      intro r hr p hp
      rcases List.mem_append.mp hp with h | h
      · exact hnew r (List.mem_cons_of_mem _ hr) p h
      · have hpq : p = (q.1, ⟨q.2, some (now + c.ttl_hours), now⟩) := by simpa using h
        subst hpq
        rw [List.map_cons] at hnd
        have hq : q.1 ∉ rest.map Prod.fst := (List.nodup_cons.mp hnd).1
        intro he
        exact hq (he ▸ List.mem_map_of_mem Prod.fst hr)
    have hroom2 : (URLCache.mk c.ttl_hours c.max_size
        (c.cache ++ [(q.1, ⟨q.2, some (now + c.ttl_hours), now⟩)])).cache.length + rest.length ≤
        (URLCache.mk c.ttl_hours c.max_size
        (c.cache ++ [(q.1, ⟨q.2, some (now + c.ttl_hours), now⟩)])).max_size := by
      simp only [List.length_append, List.length_cons, List.length_nil] at hroom ⊢
      omega
    have hih := ih (URLCache.mk c.ttl_hours c.max_size
        (c.cache ++ [(q.1, ⟨q.2, some (now + c.ttl_hours), now⟩)])) hf2 hnd2 hnew2 hroom2
    show insertAll now rest (c.set now q.1 q.2) = _
    rw [hstep, hih]
    simp

theorem insertAll_evicts_lru (ttl maxSize now : Nat) (first lastp : String × String)
    (mid : List (String × String))
    (hnd : ((first :: mid ++ [lastp]).map Prod.fst).Nodup)
    (hlen : mid.length + 1 = maxSize) :
    (insertAll now (first :: mid ++ [lastp]) ⟨ttl, maxSize, []⟩).cache.length = maxSize ∧
    lookupEntry (insertAll now (first :: mid ++ [lastp]) ⟨ttl, maxSize, []⟩).cache first.1 =
      none ∧
    ∀ p ∈ mid ++ [lastp],
      lookupEntry (insertAll now (first :: mid ++ [lastp]) ⟨ttl, maxSize, []⟩).cache p.1 =
        some ⟨p.2, some (now + ttl), now⟩ := by
  have hndk : (first.1 :: (mid.map Prod.fst ++ [lastp.1])).Nodup := by simpa using hnd
  obtain ⟨hf_nin, hrest⟩ := List.nodup_cons.mp hndk
  have hf_mid : first.1 ∉ mid.map Prod.fst := fun h => hf_nin (List.mem_append_left _ h)
  rcases List.nodup_append.mp hrest with ⟨hmidnd, _, hdisj⟩
  have hlast_mid : lastp.1 ∉ mid.map Prod.fst := fun h => hdisj h (by simp)
  have h1 := insertAll_fresh now (first :: mid) ⟨ttl, maxSize, []⟩
    (by intro p hp; simp at hp)
    (by rw [List.map_cons]; exact List.nodup_cons.mpr ⟨hf_mid, hmidnd⟩)
    (by intro q hq p hp; simp at hp)
    (by simp only [List.length_cons, List.length_nil]; omega)
  have hsplit : insertAll now (first :: mid ++ [lastp]) ⟨ttl, maxSize, []⟩ =
      (insertAll now (first :: mid) ⟨ttl, maxSize, []⟩).set now lastp.1 lastp.2 := by
    unfold insertAll
    rw [show (first :: mid ++ [lastp] : List (String × String)) =
        (first :: mid) ++ [lastp] from rfl, List.foldl_append]
    rfl
  have hc1 : insertAll now (first :: mid) ⟨ttl, maxSize, []⟩ =
      ⟨ttl, maxSize, (first :: mid).map
        (fun q => (q.1, ⟨q.2, some (now + ttl), now⟩))⟩ := by
    rw [h1]; simp
  have hfreshmap : ∀ p ∈ (first :: mid).map
      (fun q => ((q.1 : String), (⟨q.2, some (now + ttl), now⟩ : CacheEntry))),
      isExpiredAt now p.2 = false := by
    intro p hp
    obtain ⟨q, hq, rfl⟩ := List.mem_map.mp hp
    simp only [isExpiredAt, decide_eq_false_iff_not]
    omega
  have hfind2 : ((mid.map (fun q =>
      ((q.1 : String), (⟨q.2, some (now + ttl), now⟩ : CacheEntry)))).find?
      (fun p => p.1 == lastp.1)) = none := by
    rw [List.find?_eq_none]
    intro x hx
    obtain ⟨q, hq, rfl⟩ := List.mem_map.mp hx
    simp only [beq_iff_eq]
    intro he
    exact hlast_mid (he ▸ List.mem_map_of_mem Prod.fst hq)
  have hge : (((first :: mid).map (fun q =>
      ((q.1 : String), (⟨q.2, some (now + ttl), now⟩ : CacheEntry)))).length ≥ maxSize) := by
    simp only [List.length_map, List.length_cons]
    omega
  have hstep : ((⟨ttl, maxSize, (first :: mid).map
        (fun q => (q.1, ⟨q.2, some (now + ttl), now⟩))⟩ : URLCache)).set now lastp.1 lastp.2 =
      ⟨ttl, maxSize, (mid ++ [lastp]).map
        (fun q => (q.1, ⟨q.2, some (now + ttl), now⟩))⟩ := by
    have hdrop : (((first :: mid).map (fun q =>
        ((q.1 : String), (⟨q.2, some (now + ttl), now⟩ : CacheEntry)))).drop 1) =
        mid.map (fun q => ((q.1 : String), (⟨q.2, some (now + ttl), now⟩ : CacheEntry))) := by
      rw [List.map_cons]
      rfl
    simp only [URLCache.set]
    rw [cleanExpired_eq_self now _ hfreshmap]
    rw [if_pos hge, hdrop]
    simp [insertOrUpdate, hfind2]
  have hfinal : (insertAll now (first :: mid ++ [lastp]) ⟨ttl, maxSize, []⟩).cache =
      (mid ++ [lastp]).map (fun q => (q.1, ⟨q.2, some (now + ttl), now⟩)) := by
    rw [hsplit, hc1, hstep]
  have hknd : (((mid ++ [lastp]).map (fun q =>
      ((q.1 : String), (⟨q.2, some (now + ttl), now⟩ : CacheEntry)))).map Prod.fst).Nodup := by
    rw [List.map_map]
    rw [show (Prod.fst ∘ fun q : String × String =>
      ((q.1 : String), (⟨q.2, some (now + ttl), now⟩ : CacheEntry))) = Prod.fst from rfl]
    simpa using hrest
  refine ⟨?_, ?_, ?_⟩
  · rw [hfinal]
    simp only [List.length_map, List.length_append, List.length_cons, List.length_nil]
    omega
  · rw [hfinal]
    apply lookupEntry_eq_none
    intro p hp
    obtain ⟨q, hq, rfl⟩ := List.mem_map.mp hp
    intro he
    apply hf_nin
    have hq1 : q.1 ∈ (mid ++ [lastp]).map Prod.fst := List.mem_map_of_mem Prod.fst hq
    rw [List.map_append] at hq1
    exact he ▸ hq1
  · intro p hp
    rw [hfinal]
    exact lookupEntry_eq_some_of_mem _ _ _ hknd (List.mem_map.mpr ⟨p, hp, rfl⟩)

theorem get_then_set_keeps_key (c : URLCache) (now : Nat) (A : String) (eA : CacheEntry)
    (pre post : List (String × CacheEntry)) (url content : String)
    (hdec : c.cache = pre ++ (A, eA) :: post)
    (hnd : (c.cache.map Prod.fst).Nodup)
    (hfresh : ∀ p ∈ c.cache, isExpiredAt now p.2 = false)
    (hlen : 1 ≤ pre.length + post.length) :
    (c.get now A).1 = some eA.content ∧
    lookupEntry (((c.get now A).2).set now url content).cache A ≠ none := by
  have hndk : ((pre ++ (A, eA) :: post).map Prod.fst).Nodup := hdec ▸ hnd
  obtain ⟨hpre, hpost⟩ := keys_unique_split pre post A eA hndk
  have hfind : c.cache.find? (fun p => p.1 == A) = some (A, eA) := by
    rw [hdec]; exact find?_first _ pre _ post hpre (by simp)
  have hlook : lookupEntry c.cache A = some eA := by
    unfold lookupEntry; rw [hfind]; rfl
  have hmemA : (A, eA) ∈ c.cache := by
    rw [hdec]; exact List.mem_append_right _ (List.mem_cons_self _ _)
  have hfA : isExpiredAt now eA = false := hfresh (A, eA) hmemA
  have hmv : moveToEnd c.cache A = (pre ++ post) ++ [(A, eA)] := by
    unfold moveToEnd
    rw [hfind]
    unfold eraseKey
    rw [hdec, eraseP_first _ pre _ post hpre (by simp)]
  have hget : c.get now A = (some eA.content, { c with cache := moveToEnd c.cache A }) := by
    unfold URLCache.get
    obtain ⟨ec, ee, eca⟩ := eA
    cases ee with
    | none => simp only [hlook]
    | some t =>
      simp only [hlook]
      rw [if_neg (show ¬ now > t by
        simp only [isExpiredAt, decide_eq_false_iff_not] at hfA
        omega)]
  rw [hget]
  refine ⟨rfl, ?_⟩
  apply lookupEntry_ne_none_of_key_mem
  show A ∈ ((URLCache.set { c with cache := moveToEnd c.cache A } now url content).cache).map
    Prod.fst
  have hfresh2 : ∀ p ∈ ({ c with cache := moveToEnd c.cache A } : URLCache).cache,
      isExpiredAt now p.2 = false := by
    intro p hp
    exact hfresh p (mem_of_mem_moveToEnd hp)
  simp only [URLCache.set]
  rw [cleanExpired_eq_self now _ hfresh2]
  apply key_mem_insertOrUpdate
  rw [show ({ c with cache := moveToEnd c.cache A } : URLCache).cache =
    (pre ++ post) ++ [(A, eA)] from hmv]
  by_cases hev : ((pre ++ post) ++ [(A, eA)]).length ≥
      ({ c with cache := moveToEnd c.cache A } : URLCache).max_size
  · rw [if_pos hev]
    cases hpp : pre ++ post with
    | nil =>
      exfalso
      have : (pre ++ post).length = 0 := by rw [hpp]; rfl
      simp only [List.length_append] at this
      omega
    | cons r rs =>
      show A ∈ (rs ++ [(A, eA)]).map Prod.fst
      rw [List.map_append]
      exact List.mem_append_right _ (by simp)
  · rw [if_neg hev]
    rw [List.map_append]
    exact List.mem_append_right _ (by simp)

theorem set_length_bound (c : URLCache) (now : Nat) (url content : String)
    (hms : 1 ≤ c.max_size) (h : c.cache.length ≤ c.max_size) :
    ((c.set now url content).cache).length ≤ c.max_size := by
  simp only [URLCache.set]
  have hcl : (cleanExpired now c.cache).length ≤ c.cache.length :=
    List.length_filter_le _ _
  by_cases hev : (cleanExpired now c.cache).length ≥ c.max_size
  · rw [if_pos hev]
    have h1 := insertOrUpdate_length ((cleanExpired now c.cache).drop 1) url
      ⟨content, some (now + c.ttl_hours), now⟩
    have h2 : ((cleanExpired now c.cache).drop 1).length =
        (cleanExpired now c.cache).length - 1 := by simp
    omega
  · rw [if_neg hev]
    have h1 := insertOrUpdate_length (cleanExpired now c.cache) url
      ⟨content, some (now + c.ttl_hours), now⟩
    omega

/-- C4 amended: (i) inserting max_size + 1 distinct fresh URLs into an empty
cache leaves exactly max_size entries, with the first-inserted (least
recently used) URL evicted and all the others present; (ii) when the cache
holds at least two entries (all fresh, unique keys), an entry that was just
accessed via get - making it most recently used - always survives the next
insertion; (iii) a set never pushes a cache that respects its bound over
max_size.  With max_size = 1 the most recently accessed entry is also the
least recently used one and the claim as stated fails (see the
counterexample). -/
theorem c4_amended :
    (∀ (ttl maxSize now : Nat) (first lastp : String × String)
        (mid : List (String × String)),
      ((first :: mid ++ [lastp]).map Prod.fst).Nodup →
      mid.length + 1 = maxSize →
      (insertAll now (first :: mid ++ [lastp]) ⟨ttl, maxSize, []⟩).cache.length = maxSize ∧
      lookupEntry (insertAll now (first :: mid ++ [lastp]) ⟨ttl, maxSize, []⟩).cache first.1 =
        none ∧
      (∀ p ∈ mid ++ [lastp],
        lookupEntry (insertAll now (first :: mid ++ [lastp]) ⟨ttl, maxSize, []⟩).cache p.1 =
          some ⟨p.2, some (now + ttl), now⟩)) ∧
    (∀ (c : URLCache) (now : Nat) (A : String) (eA : CacheEntry)
        (pre post : List (String × CacheEntry)) (url content : String),
      c.cache = pre ++ (A, eA) :: post →
      (c.cache.map Prod.fst).Nodup →
      (∀ p ∈ c.cache, isExpiredAt now p.2 = false) →
      1 ≤ pre.length + post.length →
      (c.get now A).1 = some eA.content ∧
      lookupEntry (((c.get now A).2).set now url content).cache A ≠ none) ∧
    (∀ (c : URLCache) (now : Nat) (url content : String),
      1 ≤ c.max_size → c.cache.length ≤ c.max_size →
      ((c.set now url content).cache).length ≤ c.max_size) := by
  refine ⟨?_, ?_, ?_⟩
  · intro ttl maxSize now first lastp mid hnd hlen
    exact insertAll_evicts_lru ttl maxSize now first lastp mid hnd hlen
  · intro c now A eA pre post url content hdec hnd hfresh hlen
    exact get_then_set_keeps_key c now A eA pre post url content hdec hnd hfresh hlen
  · intro c now url content hms h
    exact set_length_bound c now url content hms h

/-- C4 amended witness: two fresh URLs inserted into an empty cache of
max_size 1 evict the first; and in a two-entry cache of max_size 2, the
entry B just accessed via get survives the next insertion of C. -/
theorem c4_amended_witness :
    ((insertAll 0 [("A", "a"), ("B", "b")] ⟨7, 1, []⟩).cache.length = 1 ∧
      lookupEntry (insertAll 0 [("A", "a"), ("B", "b")] ⟨7, 1, []⟩).cache "A" = none) ∧
    (((URLCache.mk 7 2 [("A", ⟨"a", some 7, 0⟩), ("B", ⟨"b", some 7, 0⟩)]).get 0 "B").1 =
        some "b" ∧
      lookupEntry ((((URLCache.mk 7 2 [("A", ⟨"a", some 7, 0⟩), ("B", ⟨"b", some 7, 0⟩)]).get
          0 "B").2).set 0 "C" "c").cache "B" ≠ none) := by
  have h1 := c4_amended.1 7 1 0 ("A", "a") ("B", "b") [] (by decide) (by decide)
  have h2 := c4_amended.2.1 (URLCache.mk 7 2 [("A", ⟨"a", some 7, 0⟩), ("B", ⟨"b", some 7, 0⟩)])
    0 "B" ⟨"b", some 7, 0⟩ [("A", ⟨"a", some 7, 0⟩)] [] "C" "c"
    (by decide) (by decide) (by decide) (by decide)
  exact ⟨⟨h1.1, h1.2.1⟩, h2⟩

theorem insertOrUpdate_update (pre post : List (String × CacheEntry)) (url : String)
    (e0 e : CacheEntry) (hpre : ∀ x ∈ pre, (x.1 == url) = false)
    (hpost : ∀ x ∈ post, (x.1 == url) = false) :
    insertOrUpdate (pre ++ (url, e0) :: post) url e = pre ++ (url, e) :: post := by
  unfold insertOrUpdate
  have hf : ((pre ++ (url, e0) :: post).find? (fun p => p.1 == url)) = some (url, e0) :=
    find?_first _ pre _ post hpre (by simp)
  rw [hf]
  simp only [Option.isSome_some, if_pos]
  rw [List.map_append, List.map_cons]
  have hmap : ∀ (l : List (String × CacheEntry)), (∀ x ∈ l, (x.1 == url) = false) →
      l.map (fun p => if p.1 == url then (p.1, e) else p) = l := by
    intro l hl
    have h2 : l.map (fun p => if p.1 == url then (p.1, e) else p) = l.map id := by
      apply List.map_congr_left
      intro x hx
      rw [if_neg (by simp [hl x hx])]
      rfl
    rw [h2, List.map_id]
  rw [hmap pre hpre, hmap post hpost]
  rw [if_pos (by simp : ((url, e0).1 == url) = true)]

/-- Overwriting a fresh key that is not at the front of the store: with the
store exactly full the front entry is evicted and the key keeps its relative
position; below capacity the key order is unchanged. -/
theorem set_full_overwrite_mid (c : URLCache) (now : Nat) (url content : String)
    (p0 : String × CacheEntry) (pre2 post : List (String × CacheEntry)) (e0 : CacheEntry)
    (hdec : c.cache = (p0 :: pre2) ++ (url, e0) :: post)
    (hnd : (c.cache.map Prod.fst).Nodup)
    (hfresh : ∀ p ∈ c.cache, isExpiredAt now p.2 = false) :
    (c.cache.length = c.max_size →
      (c.set now url content).cache.map Prod.fst = (c.cache.map Prod.fst).tail ∧
      (c.set now url content).cache.length = c.max_size - 1 ∧
      lookupEntry (c.set now url content).cache url =
        some ⟨content, some (now + c.ttl_hours), now⟩ ∧
      lookupEntry (c.set now url content).cache p0.1 = none) ∧
    (c.cache.length < c.max_size →
      (c.set now url content).cache.map Prod.fst = c.cache.map Prod.fst) := by
  have hndk : (((p0 :: pre2) ++ (url, e0) :: post).map Prod.fst).Nodup := hdec ▸ hnd
  obtain ⟨hpreB, hpostB⟩ := keys_unique_split (p0 :: pre2) post url e0 hndk
  have hpre2B : ∀ x ∈ pre2, (x.1 == url) = false :=
    fun x hx => hpreB x (List.mem_cons_of_mem _ hx)
  have hclean : cleanExpired now c.cache = c.cache := cleanExpired_eq_self now _ hfresh
  have hlen0 : c.cache.length = pre2.length + post.length + 2 := by
    rw [hdec]
    simp only [List.cons_append, List.length_cons, List.length_append]
    omega
  have hp0nin : p0.1 ∉ pre2.map Prod.fst ++ url :: post.map Prod.fst := by
    have h2 : (p0.1 :: (pre2.map Prod.fst ++ url :: post.map Prod.fst)).Nodup := by
      simpa using hndk
    exact (List.nodup_cons.mp h2).1
  constructor
  · intro hfull
    have hset : (c.set now url content) = ⟨c.ttl_hours, c.max_size,
        pre2 ++ (url, ⟨content, some (now + c.ttl_hours), now⟩) :: post⟩ := by
      simp only [URLCache.set]
      rw [hclean, if_pos (by omega : c.cache.length ≥ c.max_size), hdec]
      rw [show ((p0 :: pre2) ++ (url, e0) :: post).drop 1 = pre2 ++ (url, e0) :: post
        from rfl]
      rw [insertOrUpdate_update pre2 post url e0 _ hpre2B hpostB]
    refine ⟨?_, ?_, ?_, ?_⟩
    · rw [hset, hdec]
      simp
    · rw [hset]
      simp only [List.length_append, List.length_cons]
      omega
    · rw [hset]
      unfold lookupEntry
      rw [find?_first _ pre2 _ post hpre2B (by simp)]
      rfl
    · rw [hset]
      apply lookupEntry_eq_none
      intro x hx he
      apply hp0nin
      rw [← he]
      rcases List.mem_append.mp hx with h | h
      · exact List.mem_append_left _ (List.mem_map_of_mem Prod.fst h)
      · rcases List.mem_cons.mp h with h1 | h2
        · rw [h1]
          exact List.mem_append_right _ (List.mem_cons_self _ _)
        · exact List.mem_append_right _
            (List.mem_cons_of_mem _ (List.mem_map_of_mem Prod.fst h2))
  · intro hlt
    have hset2 : (c.set now url content) = ⟨c.ttl_hours, c.max_size,
        (p0 :: pre2) ++ (url, ⟨content, some (now + c.ttl_hours), now⟩) :: post⟩ := by
      simp only [URLCache.set]
      rw [hclean, if_neg (by omega : ¬ c.cache.length ≥ c.max_size), hdec]
      rw [insertOrUpdate_update (p0 :: pre2) post url e0 _ hpreB hpostB]
    rw [hset2, hdec]
    simp


/-- Whether the outcome is one of the three caught error classes. -/
def isFailure : FetchOutcome → Bool
  | .success _ => false
  | _ => true

/-- The diagnostic string fetch_url_content returns for each error class. -/
def failureMessage : FetchOutcome → String
  | .success t => t
  | .httpStatusError code => "Erro ao buscar URL: " ++ toString code
  | .requestError msg => "Erro de conexão ao buscar URL: " ++ msg
  | .otherError msg => "Erro ao processar URL: " ++ msg

/-- C9 counterexample: a failed fetch does not always leave the cache
completely unchanged: when the cache holds an expired entry for the URL, the
initial lookup deletes it lazily, so the cache after the failed fetch
differs from the cache before (while the fetch itself returns only the
diagnostic string). -/
theorem c9_counterexample :
    (fetch_url_content (some ⟨1, 10, [("u", ⟨"old", some 0, 0⟩)]⟩) "u" 100
        (.requestError "boom") 5).2 ≠ some ⟨1, 10, [("u", ⟨"old", some 0, 0⟩)]⟩ ∧
    (fetch_url_content (some ⟨1, 10, [("u", ⟨"old", some 0, 0⟩)]⟩) "u" 100
        (.requestError "boom") 5).1 = "Erro de conexão ao buscar URL: boom" := by
  exact ⟨by decide, by decide⟩

/-- C9 amended: when the cache lookup comes back falsy and the retrieval
fails, fetch_url_content returns the diagnostic string for the error class
and stores nothing: every entry of the resulting cache was already in the
cache before the call (the only possible changes are those made by the
lookup itself: lazy removal of an expired entry, or a recency move of an
empty-content entry), and a subsequent fetch of the same URL reaches the
network again - it returns the freshly extracted text, never the cached
diagnostic. -/
theorem c9_amended (c : URLCache) (url : String) (maxLength : Nat) (outcome : FetchOutcome)
    (now now2 : Nat) (t2 : String)
    (hnd : (c.cache.map Prod.fst).Nodup)
    (hfail : isFailure outcome = true)
    (hmiss : truthy (c.get now url).1 = false) :
    (fetch_url_content (some c) url maxLength outcome now).1 = failureMessage outcome ∧
    (∀ c2, (fetch_url_content (some c) url maxLength outcome now).2 = some c2 →
      ∀ p ∈ c2.cache, p ∈ c.cache) ∧
    (fetch_url_content (fetch_url_content (some c) url maxLength outcome now).2
        url maxLength (.success t2) now2).1 =
      (if t2.length > maxLength then strTake t2 maxLength ++ truncSuffix else t2) := by
  have hnet : ∀ (co : Option URLCache),
      fetchNetwork co url maxLength outcome now = (failureMessage outcome, co) := by
    intro co
    cases outcome with
    | success t => simp [isFailure] at hfail
    | httpStatusError code => rfl
    | requestError m => rfl
    | otherError m => rfl
  have hnet2 : ∀ (co : Option URLCache) (nw : Nat),
      (fetchNetwork co url maxLength (.success t2) nw).1 =
        (if t2.length > maxLength then strTake t2 maxLength ++ truncSuffix else t2) := by
    intro co nw
    rfl
  cases hl : lookupEntry c.cache url with
  | none =>
    have hget : c.get now url = (none, c) := by
      unfold URLCache.get
      rw [hl]
    have hfetch : fetch_url_content (some c) url maxLength outcome now =
        (failureMessage outcome, some c) := by
      simp only [fetch_url_content]
      rw [hget]
      exact hnet (some c)
    refine ⟨by rw [hfetch], ?_, ?_⟩
    · intro c2 h2
      rw [hfetch] at h2
      have hc2 : c = c2 := by simpa using h2
      subst hc2
      intro p hp
      exact hp
    · rw [hfetch]
      simp only [fetch_url_content]
      have hget2 : c.get now2 url = (none, c) := by
        unfold URLCache.get
        rw [hl]
      rw [hget2]
      exact hnet2 (some c) now2
  | some entry =>
    obtain ⟨ec, ee, eca⟩ := entry
    cases ee with
    | some texp =>
      by_cases hexp : now > texp
      · -- expired entry: the lookup removes it lazily
        have hget : c.get now url = (none, { c with cache := eraseKey c.cache url }) := by
          unfold URLCache.get
          simp only [hl]
          rw [if_pos hexp]
        have henone : lookupEntry (eraseKey c.cache url) url = none :=
          lookupEntry_eraseKey_self _ _ hnd
        have hfetch : fetch_url_content (some c) url maxLength outcome now =
            (failureMessage outcome, some { c with cache := eraseKey c.cache url }) := by
          simp only [fetch_url_content]
          rw [hget]
          exact hnet _
        have hgetE : ({ c with cache := eraseKey c.cache url } : URLCache).get now2 url =
            (none, { c with cache := eraseKey c.cache url }) := by
          unfold URLCache.get
          rw [show lookupEntry ({ c with cache := eraseKey c.cache url } : URLCache).cache
            url = none from henone]
        refine ⟨by rw [hfetch], ?_, ?_⟩
        · intro c2 h2
          rw [hfetch] at h2
          have hc2 : ({ c with cache := eraseKey c.cache url } : URLCache) = c2 := by
            simpa using h2
          subst hc2
          intro p hp
          exact mem_of_mem_eraseKey hp
        · rw [hfetch]
          simp only [fetch_url_content]
          rw [hgetE]
          exact hnet2 _ now2
      · -- fresh entry, necessarily with empty content
        have hget : c.get now url = (some ec,
            { c with cache := moveToEnd c.cache url }) := by
          unfold URLCache.get
          simp only [hl]
          rw [if_neg hexp]
        have hec0 : ec.length = 0 := by
          rw [hget] at hmiss
          simpa [truthy] using hmiss
        have hlook2 : lookupEntry (moveToEnd c.cache url) url =
            some ⟨ec, some texp, eca⟩ := by
          rw [lookupEntry_moveToEnd_self _ _ hnd]
          exact hl
        have hfetch : fetch_url_content (some c) url maxLength outcome now =
            (failureMessage outcome, some { c with cache := moveToEnd c.cache url }) := by
          simp only [fetch_url_content]
          rw [hget]
          show (if (ec.length != 0) = true then
              (if ec.length > maxLength then strTake ec maxLength else ec,
               some ({ c with cache := moveToEnd c.cache url } : URLCache))
            else fetchNetwork (some { c with cache := moveToEnd c.cache url })
              url maxLength outcome now) = _
          rw [if_neg (by simp [hec0])]
          exact hnet _
        refine ⟨by rw [hfetch], ?_, ?_⟩
        · intro c2 h2
          rw [hfetch] at h2
          have hc2 : ({ c with cache := moveToEnd c.cache url } : URLCache) = c2 := by
            simpa using h2
          subst hc2
          intro p hp
          exact mem_of_mem_moveToEnd hp
        · rw [hfetch]
          simp only [fetch_url_content]
          by_cases hexp2 : now2 > texp
          · have hgetM : ({ c with cache := moveToEnd c.cache url } : URLCache).get
                now2 url = (none, { ({ c with cache := moveToEnd c.cache url } : URLCache)
                  with cache := eraseKey (moveToEnd c.cache url) url }) := by
              unfold URLCache.get
              simp only [hlook2]
              rw [if_pos hexp2]
            rw [hgetM]
            exact hnet2 _ now2
          · have hgetM : ({ c with cache := moveToEnd c.cache url } : URLCache).get
                now2 url = (some ec, { ({ c with cache := moveToEnd c.cache url } : URLCache)
                  with cache := moveToEnd (moveToEnd c.cache url) url }) := by
              unfold URLCache.get
              simp only [hlook2]
              rw [if_neg hexp2]
            rw [hgetM]
            show (if (ec.length != 0) = true then _ else fetchNetwork _ url maxLength
              (.success t2) now2).1 = _
            rw [if_neg (by simp [hec0])]
            exact hnet2 _ now2
    | none =>
      -- entry without expiry, necessarily with empty content
      have hget : c.get now url = (some ec,
          { c with cache := moveToEnd c.cache url }) := by
        unfold URLCache.get
        simp only [hl]
      have hec0 : ec.length = 0 := by
        rw [hget] at hmiss
        simpa [truthy] using hmiss
      have hlook2 : lookupEntry (moveToEnd c.cache url) url =
          some ⟨ec, none, eca⟩ := by
        rw [lookupEntry_moveToEnd_self _ _ hnd]
        exact hl
      have hfetch : fetch_url_content (some c) url maxLength outcome now =
          (failureMessage outcome, some { c with cache := moveToEnd c.cache url }) := by
        simp only [fetch_url_content]
        rw [hget]
        show (if (ec.length != 0) = true then
            (if ec.length > maxLength then strTake ec maxLength else ec,
             some ({ c with cache := moveToEnd c.cache url } : URLCache))
          else fetchNetwork (some { c with cache := moveToEnd c.cache url })
            url maxLength outcome now) = _
        rw [if_neg (by simp [hec0])]
        exact hnet _
      refine ⟨by rw [hfetch], ?_, ?_⟩
      · intro c2 h2
        rw [hfetch] at h2
        have hc2 : ({ c with cache := moveToEnd c.cache url } : URLCache) = c2 := by
          simpa using h2
        subst hc2
        intro p hp
        exact mem_of_mem_moveToEnd hp
      · rw [hfetch]
        simp only [fetch_url_content]
        have hgetM : ({ c with cache := moveToEnd c.cache url } : URLCache).get
            now2 url = (some ec, { ({ c with cache := moveToEnd c.cache url } : URLCache)
              with cache := moveToEnd (moveToEnd c.cache url) url }) := by
          unfold URLCache.get
          simp only [hlook2]
        rw [hgetM]
        show (if (ec.length != 0) = true then _ else fetchNetwork _ url maxLength
          (.success t2) now2).1 = _
        rw [if_neg (by simp [hec0])]
        exact hnet2 _ now2

/-- C9 amended witness: on an empty cache a connection error yields the
diagnostic string, nothing is stored, and the next fetch returns the fresh
page text. -/
theorem c9_amended_witness :
    (fetch_url_content (some ⟨1, 10, []⟩) "u" 100 (.requestError "x") 0).1 =
      "Erro de conexão ao buscar URL: x" ∧
    (fetch_url_content (fetch_url_content (some ⟨1, 10, []⟩) "u" 100
        (.requestError "x") 0).2 "u" 100 (.success "hi") 0).1 = "hi" := by
  have h := c9_amended ⟨1, 10, []⟩ "u" 100 (.requestError "x") 0 0 "hi"
    (by decide) (by decide) (by decide)
  exact ⟨h.1, by
    have h3 := h.2.2
    rw [if_neg (by decide : ¬ ("hi".length > 100))] at h3
    exact h3⟩

/-- The category-omitted scan contract: when the directories decompose as
pre ++ c :: post with no directory of pre containing the document and c
containing it, the result is the content read from c (and it is present);
when no directory contains it, the result is None. -/
def scansInOrder (cats : List (String × List (String × String))) (name : String)
    (res : Option String) : Prop :=
  (∀ pre cdir post, cats = pre ++ cdir :: post →
    (∀ x ∈ pre, dirHas name x.2 = false) → dirHas name cdir.2 = true →
    res = readIn cdir.2 name ∧ res.isSome = true) ∧
  ((∀ x ∈ cats, dirHas name x.2 = false) → res = none)

theorem findDocDir_spec (cats : List (String × List (String × String))) (name : String) :
    (∀ pre cdir post, cats = pre ++ cdir :: post →
      (∀ x ∈ pre, dirHas name x.2 = false) → dirHas name cdir.2 = true →
      findDocDir cats name = some cdir) ∧
    ((∀ x ∈ cats, dirHas name x.2 = false) → findDocDir cats name = none) := by
  constructor
  · intro pre cdir post hdec hpre hc
    rw [hdec]
    exact find?_first _ pre cdir post hpre hc
  · intro hall
    unfold findDocDir
    rw [List.find?_eq_none]
    intro x hx
    simp [hall x hx]

/-- C8: with the category argument omitted, get_document scans the category
directories in order and returns the content of the first one containing the
named document of the requested type; when none contains it, the result is
None (absent, not an error).  For pdf this holds whenever a PDF extraction
library is importable. -/
theorem c8_get_document (fs : DocsFS) (name : String) :
    scansInOrder fs.mdCats name (get_document fs name "md" none) ∧
    (fs.pdfLib = true →
      scansInOrder fs.pdfCats name (get_document fs name "pdf" none)) := by
  have hmd : get_document fs name "md" none =
      (match findDocDir fs.mdCats name with
       | some cdir => readIn cdir.2 name
       | none => none) := rfl
  constructor
  · constructor
    · intro pre cdir post hdec hpre hc
      have hf := (findDocDir_spec fs.mdCats name).1 pre cdir post hdec hpre hc
      rw [hmd, hf]
      show readIn cdir.2 name = readIn cdir.2 name ∧ (readIn cdir.2 name).isSome = true
      refine ⟨rfl, ?_⟩
      unfold dirHas at hc
      unfold readIn
      cases hfind : cdir.2.find? (fun f => f.1 == name) with
      | none => rw [hfind] at hc; simp at hc
      | some q => rfl
    · intro hall
      rw [hmd, (findDocDir_spec fs.mdCats name).2 hall]
  · intro hpdf
    have hpd : get_document fs name "pdf" none =
        (match findDocDir fs.pdfCats name with
         | some cdir => if fs.pdfLib then readIn cdir.2 name else none
         | none => none) := rfl
    constructor
    · intro pre cdir post hdec hpre hc
      have hf := (findDocDir_spec fs.pdfCats name).1 pre cdir post hdec hpre hc
      rw [hpd, hf]
      show (if fs.pdfLib = true then readIn cdir.2 name else none) = readIn cdir.2 name ∧
        (if fs.pdfLib = true then readIn cdir.2 name else none).isSome = true
      rw [if_pos hpdf]
      refine ⟨rfl, ?_⟩
      unfold dirHas at hc
      unfold readIn
      cases hfind : cdir.2.find? (fun f => f.1 == name) with
      | none => rw [hfind] at hc; simp at hc
      | some q => rfl
    · intro hall
      rw [hpd, (findDocDir_spec fs.pdfCats name).2 hall]

/-- C8 witness: a two-directory tree where only the second directory holds
the document; the scan returns its content, and an unknown document gives
None. -/
theorem c8_get_document_witness :
    get_document ⟨[("c1", []), ("c2", [("doc", "body")])], [], false⟩ "doc" "md" none =
      some "body" ∧
    get_document ⟨[("c1", []), ("c2", [("doc", "body")])], [], false⟩ "ghost" "md" none =
      none := by
  have h := c8_get_document ⟨[("c1", []), ("c2", [("doc", "body")])], [], false⟩ "doc"
  have h2 := c8_get_document ⟨[("c1", []), ("c2", [("doc", "body")])], [], false⟩ "ghost"
  constructor
  · have := (h.1.1 [("c1", [])] ("c2", [("doc", "body")]) [] (by decide) (by decide)
      (by decide)).1
    rw [this]
    rfl
  · exact h2.1.2 (by decide)

/-- C7: load_urls_from_json returns exactly the empty default structure for a
missing/unreadable descriptor (the none input) and for a parsed document that
is not an object; the per-entry loop bodies drop every entry that is not a
record and every record whose url field is absent, not a string, or rejected
by validate_url; every surviving tutorial is normalised to the full shape
with defaults (titulo falls back to the placeholder, categoria to the empty
string, topicos to the empty list when absent or not a list), and likewise
for url entries with a descricao default; the concrete entry with url
javascript:alert(1) is dropped. -/
theorem c7_loader :
    load_urls_from_json none = { tutoriais := [], urls := [] } ∧
    (∀ j : JValue, jIsObj j = false →
      load_urls_from_json (some j) = { tutoriais := [], urls := [] }) ∧
    (∀ fields, (load_urls_from_json (some (.jobj fields))).tutoriais =
        (match jGetD fields "tutoriais" (.jarr []) with
         | .jarr l => l
         | _ => []).filterMap processTutorial) ∧
    (∀ v : JValue, jIsObj v = false → processTutorial v = none ∧ processUrlItem v = none) ∧
    (∀ fields, (∀ u : String, jLookup fields "url" = some (.jstr u) →
        validate_url u = false) →
      processTutorial (.jobj fields) = none ∧ processUrlItem (.jobj fields) = none) ∧
    (∀ fields t, processTutorial (.jobj fields) = some t →
      jLookup fields "url" = some (.jstr t.url) ∧ validate_url t.url = true ∧
      t.titulo = jGetD fields "titulo" (.jstr "Sem título") ∧
      t.categoria = jGetD fields "categoria" (.jstr "") ∧
      t.topicos = jTopicsField fields ∧
      (jLookup fields "titulo" = none → t.titulo = .jstr "Sem título") ∧
      (jLookup fields "topicos" = none → t.topicos = [])) ∧
    (∀ fields u, processUrlItem (.jobj fields) = some u →
      jLookup fields "url" = some (.jstr u.url) ∧ validate_url u.url = true ∧
      u.descricao = jGetD fields "descricao" (.jstr "") ∧
      (jLookup fields "topicos" = none → u.topicos = [])) ∧
    processTutorial
      (.jobj [("titulo", .jstr "x"), ("url", .jstr "javascript:alert(1)")]) = none := by
  refine ⟨rfl, ?_, ?_, ?_, ?_, ?_, ?_, ?_⟩
  · intro j hj
    cases j with
    | jobj fields => simp [jIsObj] at hj
    | jnull => rfl
    | jbool b => rfl
    | jnum n => rfl
    | jstr s => rfl
    | jarr l => rfl
  · intro fields
    rfl
  · intro v hv
    cases v with
    | jobj fields => simp [jIsObj] at hv
    | jnull => exact ⟨rfl, rfl⟩
    | jbool b => exact ⟨rfl, rfl⟩
    | jnum n => exact ⟨rfl, rfl⟩
    | jstr s => exact ⟨rfl, rfl⟩
    | jarr l => exact ⟨rfl, rfl⟩
  · intro fields hbad
    constructor
    · simp only [processTutorial]
      cases hu : jLookup fields "url" with
      | none => rfl
      | some v =>
        cases v with
        | jstr u => simp [hbad u hu]
        | jnull => rfl
        | jbool b => rfl
        | jnum n => rfl
        | jarr l => rfl
        | jobj f2 => rfl
    · simp only [processUrlItem]
      cases hu : jLookup fields "url" with
      | none => rfl
      | some v =>
        cases v with
        | jstr u => simp [hbad u hu]
        | jnull => rfl
        | jbool b => rfl
        | jnum n => rfl
        | jarr l => rfl
        | jobj f2 => rfl
  · intro fields t ht
    simp only [processTutorial] at ht
    split at ht
    next u heq =>
      split at ht
      next hval =>
        have ht3 : (⟨jGetD fields "titulo" (.jstr "Sem título"), u,
            jGetD fields "categoria" (.jstr ""), jTopicsField fields⟩ : TutorialRec) = t := by
          injection ht
        subst ht3
        refine ⟨heq, hval, rfl, rfl, rfl, ?_, ?_⟩
        · intro htit
          show jGetD fields "titulo" (.jstr "Sem título") = JValue.jstr "Sem título"
          unfold jGetD
          rw [htit]
          rfl
        · intro htop
          show jTopicsField fields = []
          unfold jTopicsField jGetD
          rw [htop]
          rfl
      next hval => exact absurd ht (by simp)
    all_goals exact absurd ht (by simp)
  · intro fields u hu2
    simp only [processUrlItem] at hu2
    split at hu2
    next w heq =>
      split at hu2
      next hval =>
        have hu3 : (⟨w, jGetD fields "descricao" (.jstr ""),
            jGetD fields "categoria" (.jstr ""), jTopicsField fields⟩ : URLRec) = u := by
          injection hu2
        subst hu3
        refine ⟨heq, hval, rfl, ?_⟩
        intro htop
        show jTopicsField fields = []
        unfold jTopicsField jGetD
        rw [htop]
        rfl
      next hval => exact absurd hu2 (by simp)
    all_goals exact absurd hu2 (by simp)
  · simp only [processTutorial]
    rw [show jLookup [("titulo", .jstr "x"), ("url", .jstr "javascript:alert(1)")] "url" =
      some (.jstr "javascript:alert(1)") from rfl]
    simp [show validate_url "javascript:alert(1)" = false from by decide]

/-- C7 witness: a non-object document yields the default structure, and a
record with only a valid url is normalised with the placeholder title, empty
category and empty topics. -/
theorem c7_loader_witness :
    load_urls_from_json (some (.jarr [.jstr "x"])) = { tutoriais := [], urls := [] } ∧
    (⟨.jstr "Sem título", "https://example.com", .jstr "", []⟩ : TutorialRec).topicos =
      [] := by
  have h1 := c7_loader.2.1 (.jarr [.jstr "x"]) rfl
  have h2 := c7_loader.2.2.2.2.2.1 [("url", .jstr "https://example.com")]
    ⟨.jstr "Sem título", "https://example.com", .jstr "", []⟩ (by rfl)
  exact ⟨h1, h2.2.2.2.2.2.2 rfl⟩

theorem dedupCapAux_first (l : List SearchResult) :
    ∀ (seen : List (String × String × String)) (n : Nat),
    ∀ r ∈ dedupCapAux seen n l, resultKey r ∉ seen ∧
      l.find? (fun x => resultKey x == resultKey r) = some r := by
  induction l with
  | nil =>
    intro seen n r hr
    cases n <;> simp [dedupCapAux] at hr
  | cons a rest ih =>
    intro seen n r hr
    cases n with
    | zero => simp [dedupCapAux] at hr
    | succ m =>
      by_cases hs : resultKey a ∈ seen
      · rw [show dedupCapAux seen (m + 1) (a :: rest) = dedupCapAux seen (m + 1) rest from by
          simp [dedupCapAux, hs]] at hr
        obtain ⟨hns, hfind⟩ := ih seen (m + 1) r hr
        have hne : (resultKey a == resultKey r) = false := by
          simp only [beq_eq_false_iff_ne]
          intro he
          rw [he] at hs
          exact hns hs
        exact ⟨hns, by rw [List.find?_cons, hne]; exact hfind⟩
      · cases m with
        | zero =>
          rw [show dedupCapAux seen 1 (a :: rest) = [a] from by
            simp [dedupCapAux, hs]] at hr
          have hra : r = a := by simpa using hr
          subst hra
          exact ⟨hs, by rw [List.find?_cons]; simp⟩
        | succ k =>
          rw [show dedupCapAux seen (k + 2) (a :: rest) =
              a :: dedupCapAux (resultKey a :: seen) (k + 1) rest from by
            simp [dedupCapAux, hs]] at hr
          rcases List.mem_cons.mp hr with hra | hr2
          · subst hra
            exact ⟨hs, by rw [List.find?_cons]; simp⟩
          · obtain ⟨hns, hfind⟩ := ih (resultKey a :: seen) (k + 1) r hr2
            have hna : resultKey r ≠ resultKey a := by
              intro he
              exact hns (by rw [he]; exact List.mem_cons_self _ _)
            have hne : (resultKey a == resultKey r) = false := by
              simp only [beq_eq_false_iff_ne]
              exact fun he => hna he.symm
            refine ⟨fun hc => hns (List.mem_cons_of_mem _ hc), ?_⟩
            rw [List.find?_cons, hne]
            exact hfind

theorem dedupCapAux_nodup (l : List SearchResult) :
    ∀ (seen : List (String × String × String)) (n : Nat),
    ((dedupCapAux seen n l).map resultKey).Nodup ∧
      ∀ k ∈ (dedupCapAux seen n l).map resultKey, k ∉ seen := by
  induction l with
  | nil =>
    intro seen n
    cases n <;> simp [dedupCapAux]
  | cons a rest ih =>
    intro seen n
    cases n with
    | zero => simp [dedupCapAux]
    | succ m =>
      by_cases hs : resultKey a ∈ seen
      · rw [show dedupCapAux seen (m + 1) (a :: rest) = dedupCapAux seen (m + 1) rest from by
          simp [dedupCapAux, hs]]
        exact ih seen (m + 1)
      · cases m with
        | zero =>
          rw [show dedupCapAux seen 1 (a :: rest) = [a] from by
            simp [dedupCapAux, hs]]
          constructor
          · simp
          · intro k hk
            have : k = resultKey a := by simpa using hk
            subst this
            exact hs
        | succ k2 =>
          rw [show dedupCapAux seen (k2 + 2) (a :: rest) =
              a :: dedupCapAux (resultKey a :: seen) (k2 + 1) rest from by
            simp [dedupCapAux, hs]]
          obtain ⟨hnd2, hnin2⟩ := ih (resultKey a :: seen) (k2 + 1)
          constructor
          · rw [List.map_cons]
            refine List.nodup_cons.mpr ⟨?_, hnd2⟩
            intro hmem
            exact hnin2 _ hmem (List.mem_cons_self _ _)
          · intro k hk
            rw [List.map_cons] at hk
            rcases List.mem_cons.mp hk with hka | hk2
            · subst hka
              exact hs
            · exact fun hc => hnin2 _ hk2 (List.mem_cons_of_mem _ hc)

/-- The number of distinct keys in l that are not yet in seen. -/
def keyCount (seen : List (String × String × String)) (l : List SearchResult) : Nat :=
  (((l.map resultKey).filter (fun k => decide (k ∉ seen))).toFinset).card

theorem dedupCapAux_length (l : List SearchResult) :
    ∀ (seen : List (String × String × String)) (n : Nat),
    (dedupCapAux seen n l).length = min n (keyCount seen l) := by
  induction l with
  | nil =>
    intro seen n
    cases n <;> simp [dedupCapAux, keyCount]
  | cons a rest ih =>
    intro seen n
    cases n with
    | zero => simp [dedupCapAux]
    | succ m =>
      by_cases hs : resultKey a ∈ seen
      · rw [show dedupCapAux seen (m + 1) (a :: rest) = dedupCapAux seen (m + 1) rest from by
          simp [dedupCapAux, hs]]
        rw [ih seen (m + 1)]
        have hkc : keyCount seen (a :: rest) = keyCount seen rest := by
          unfold keyCount
          rw [List.map_cons, List.filter_cons_of_neg (by simp [hs])]
        rw [hkc]
      · have hfc : ((a :: rest).map resultKey).filter (fun k => decide (k ∉ seen)) =
            resultKey a :: (rest.map resultKey).filter (fun k => decide (k ∉ seen)) := by
          rw [List.map_cons, List.filter_cons_of_pos (by simp [hs])]
        have hins : keyCount seen (a :: rest) =
            (insert (resultKey a)
              ((rest.map resultKey).filter (fun k => decide (k ∉ seen))).toFinset).card := by
          unfold keyCount
          rw [hfc, List.toFinset_cons]
        have hcard : (insert (resultKey a)
            ((rest.map resultKey).filter (fun k => decide (k ∉ seen))).toFinset).card =
            (((rest.map resultKey).filter (fun k => decide (k ∉ seen))).toFinset.erase
              (resultKey a)).card + 1 := by
          rw [show insert (resultKey a)
              ((rest.map resultKey).filter (fun k => decide (k ∉ seen))).toFinset =
              insert (resultKey a)
                (((rest.map resultKey).filter
                  (fun k => decide (k ∉ seen))).toFinset.erase (resultKey a)) from by
            ext x
            simp only [Finset.mem_insert, Finset.mem_erase]
            constructor
            · intro h
              rcases h with h | h
              · exact Or.inl h
              · by_cases hx : x = resultKey a
                · exact Or.inl hx
                · exact Or.inr ⟨hx, h⟩
            · intro h
              rcases h with h | ⟨_, h⟩
              · exact Or.inl h
              · exact Or.inr h]
          rw [Finset.card_insert_of_not_mem (Finset.not_mem_erase _ _)]
        have herase : keyCount (resultKey a :: seen) rest =
            (((rest.map resultKey).filter (fun k => decide (k ∉ seen))).toFinset.erase
              (resultKey a)).card := by
          unfold keyCount
          congr 1
          ext x
          simp only [List.mem_toFinset, List.mem_filter, Finset.mem_erase,
            decide_eq_true_eq, List.mem_cons]
          constructor
          · intro hx
            obtain ⟨hx1, hx2⟩ := hx
            push_neg at hx2
            exact ⟨hx2.1, hx1, hx2.2⟩
          · intro hx
            obtain ⟨hne, hx1, hx2⟩ := hx
            refine ⟨hx1, ?_⟩
            push_neg
            exact ⟨hne, hx2⟩
        cases m with
        | zero =>
          rw [show dedupCapAux seen 1 (a :: rest) = [a] from by
            simp [dedupCapAux, hs]]
          have hpos : 1 ≤ keyCount seen (a :: rest) := by
            rw [hins]
            exact Finset.card_pos.mpr ⟨resultKey a, Finset.mem_insert_self _ _⟩
          simp only [List.length_cons, List.length_nil]
          omega
        | succ k2 =>
          rw [show dedupCapAux seen (k2 + 2) (a :: rest) =
              a :: dedupCapAux (resultKey a :: seen) (k2 + 1) rest from by
            simp [dedupCapAux, hs]]
          rw [List.length_cons, ih (resultKey a :: seen) (k2 + 1), herase, hins, hcard]
          rw [Nat.succ_min_succ]

/-- C5: search_documentation returns at most 10 results; the results are
pairwise distinct on the key (tipo, titulo, url-or-empty); each returned
result is the first element with its key in the concatenated raw output of
the knowledge-base, tutorial and document passes (first occurrence wins);
the number of results is the number of distinct keys in the raw output
capped at 10 - so a query matching at least 10 distinct knowledge-base
entries yields exactly 10 results; in particular, the query a, which matches
17 knowledge-base topics, yields exactly 10 results. -/
theorem c5_search (query : String) (category : Option String)
    (tutorials : List TutorialItem) (mdCats : List (String × List (String × String))) :
    (search_documentation query category tutorials mdCats).length ≤ 10 ∧
    ((search_documentation query category tutorials mdCats).map resultKey).Nodup ∧
    (∀ r ∈ search_documentation query category tutorials mdCats,
      (rawResults query category tutorials mdCats).find?
        (fun x => resultKey x == resultKey r) = some r) ∧
    (search_documentation query category tutorials mdCats).length =
      min 10 ((rawResults query category tutorials mdCats).map resultKey).toFinset.card ∧
    (search_documentation "a" none [] []).length = 10 := by
  have hkc : keyCount [] (rawResults query category tutorials mdCats) =
      ((rawResults query category tutorials mdCats).map resultKey).toFinset.card := by
    unfold keyCount
    have hfilter : (List.map resultKey (rawResults query category tutorials mdCats)).filter
        (fun k => decide (k ∉ ([] : List (String × String × String)))) =
        List.map resultKey (rawResults query category tutorials mdCats) :=
      List.filter_eq_self.mpr (fun x hx => by simp)
    rw [hfilter]
  have hlen := dedupCapAux_length (rawResults query category tutorials mdCats) [] 10
  refine ⟨?_, (dedupCapAux_nodup _ [] 10).1, ?_, ?_, by decide⟩
  · show (dedupCapAux [] 10 (rawResults query category tutorials mdCats)).length ≤ 10
    rw [hlen]
    exact Nat.min_le_left _ _
  · intro r hr
    exact ((dedupCapAux_first _ [] 10) r hr).2
  · show (dedupCapAux [] 10 (rawResults query category tutorials mdCats)).length = _
    rw [hlen, hkc]

/-- C5 witness: the query cadastro returns the beneficiarios topic result as
the first raw occurrence of its key, and the result list is within the cap. -/
theorem c5_search_witness :
    (rawResults "cadastro" none [] []).find? (fun x => resultKey x ==
      resultKey ⟨"topico", "beneficiarios", "cadastro", none, none, none, "alta",
        "base_conhecimento"⟩) =
      some ⟨"topico", "beneficiarios", "cadastro", none, none, none, "alta",
        "base_conhecimento"⟩ ∧
    (search_documentation "cadastro" none [] []).length ≤ 10 := by
  have h := c5_search "cadastro" none [] []
  exact ⟨h.2.2.1 _ (by decide), h.1⟩

/-- C10 counterexample: set can move an overwritten key to the most recently
used position: in a full cache whose front (least recently used) entry is
the key being overwritten, set evicts that entry via popitem and then the
assignment re-inserts the key at the back, so the key order goes from
[u, B] to [B, u] - the overwritten key ends at the most-recently-used end,
and the store still holds max_size entries rather than max_size - 1. -/
theorem c10_counterexample :
    ((URLCache.mk 10 2 [("u", ⟨"x", some 10, 0⟩), ("B", ⟨"y", some 10, 0⟩)]).set 0 "u"
        "z").cache.map Prod.fst = ["B", "u"] ∧
    ((URLCache.mk 10 2 [("u", ⟨"x", some 10, 0⟩), ("B", ⟨"y", some 10, 0⟩)]).set 0 "u"
        "z").cache.length = 2 := by
  exact ⟨by decide, by decide⟩

/-- C10 amended: calling set on a key already present (fresh) while the
store holds exactly max_size entries evicts the front (least recently used)
entry even though no new key is added.  When the key is not itself the
front, a different entry (the front one) is lost, the store ends with
max_size - 1 entries, the key order becomes the tail of the old order - the
overwritten key keeps its position - and the key maps to the freshly stored
entry.  When the key is itself the front, the eviction removes the key and
the assignment re-adds it at the back: the store keeps max_size entries and
the key moves to the most-recently-used end, the one case where an
overwrite does refresh recency.  When the store is below max_size, an
overwrite leaves the key order completely unchanged wherever the key sits. -/
theorem c10_amended (c : URLCache) (now : Nat) (url content : String)
    (pre post : List (String × CacheEntry)) (e0 : CacheEntry)
    (hdec : c.cache = pre ++ (url, e0) :: post)
    (hnd : (c.cache.map Prod.fst).Nodup)
    (hfresh : ∀ p ∈ c.cache, isExpiredAt now p.2 = false) :
    (c.cache.length = c.max_size → ∀ p0 pre2, pre = p0 :: pre2 →
      (c.set now url content).cache.map Prod.fst = (c.cache.map Prod.fst).tail ∧
      (c.set now url content).cache.length = c.max_size - 1 ∧
      lookupEntry (c.set now url content).cache url =
        some ⟨content, some (now + c.ttl_hours), now⟩ ∧
      lookupEntry (c.set now url content).cache p0.1 = none) ∧
    (c.cache.length = c.max_size → pre = [] →
      (c.set now url content).cache.map Prod.fst =
        (c.cache.map Prod.fst).tail ++ [url] ∧
      (c.set now url content).cache.length = c.max_size ∧
      lookupEntry (c.set now url content).cache url =
        some ⟨content, some (now + c.ttl_hours), now⟩) ∧
    (c.cache.length < c.max_size →
      (c.set now url content).cache.map Prod.fst = c.cache.map Prod.fst ∧
      lookupEntry (c.set now url content).cache url =
        some ⟨content, some (now + c.ttl_hours), now⟩) := by
  have hndk : ((pre ++ (url, e0) :: post).map Prod.fst).Nodup := hdec ▸ hnd
  obtain ⟨hpreB, hpostB⟩ := keys_unique_split pre post url e0 hndk
  have hclean : cleanExpired now c.cache = c.cache := cleanExpired_eq_self now _ hfresh
  refine ⟨?_, ?_, ?_⟩
  · intro hfull p0 pre2 hpre
    subst hpre
    exact (set_full_overwrite_mid c now url content p0 pre2 post e0 hdec hnd hfresh).1 hfull
  · intro hfull hpre
    subst hpre
    have hfnone : post.find? (fun p => p.1 == url) = none := by
      rw [List.find?_eq_none]
      intro x hx
      simp [hpostB x hx]
    have hlookpost : lookupEntry post url = none := by
      unfold lookupEntry
      rw [hfnone]
      rfl
    have hset : c.set now url content = ⟨c.ttl_hours, c.max_size,
        post ++ [(url, ⟨content, some (now + c.ttl_hours), now⟩)]⟩ := by
      simp only [URLCache.set]
      rw [hclean, if_pos (by omega : c.cache.length ≥ c.max_size), hdec]
      rw [show (([] : List (String × CacheEntry)) ++ (url, e0) :: post).drop 1 = post
        from rfl]
      simp [insertOrUpdate, hfnone]
    refine ⟨?_, ?_, ?_⟩
    · rw [hset, hdec]
      simp
    · rw [hset]
      have hl : c.cache.length = post.length + 1 := by
        rw [hdec]
        simp
      simp only [List.length_append, List.length_cons, List.length_nil]
      omega
    · rw [hset]
      rw [lookupEntry_append post _ url hlookpost]
      unfold lookupEntry
      rw [List.find?_cons]
      simp
  · intro hlt
    have hset3 : c.set now url content = ⟨c.ttl_hours, c.max_size,
        pre ++ (url, ⟨content, some (now + c.ttl_hours), now⟩) :: post⟩ := by
      simp only [URLCache.set]
      rw [hclean, if_neg (by omega : ¬ c.cache.length ≥ c.max_size), hdec]
      rw [insertOrUpdate_update pre post url e0 _ hpreB hpostB]
    refine ⟨?_, ?_⟩
    · rw [hset3, hdec]
      simp
    · rw [hset3]
      unfold lookupEntry
      rw [find?_first _ pre _ post hpreB (by simp)]
      rfl

/-- C10 amended witness: overwriting the front key u of a full two-entry
cache moves it to the back; overwriting the non-front key B of a full cache
evicts A; overwriting A below capacity keeps the order [A, B]. -/
theorem c10_amended_witness :
    ((URLCache.mk 10 2 [("u", ⟨"x", some 10, 0⟩), ("B", ⟨"y", some 10, 0⟩)]).set 0 "u"
        "z").cache.map Prod.fst = ["B", "u"] ∧
    lookupEntry ((URLCache.mk 10 2 [("A", ⟨"x", some 10, 0⟩), ("B", ⟨"y", some 10, 0⟩)]).set
        0 "B" "w").cache "A" = none ∧
    ((URLCache.mk 10 3 [("A", ⟨"x", some 10, 0⟩), ("B", ⟨"y", some 10, 0⟩)]).set 0 "A"
        "v").cache.map Prod.fst = ["A", "B"] := by
  have h2 := (c10_amended
    (URLCache.mk 10 2 [("u", ⟨"x", some 10, 0⟩), ("B", ⟨"y", some 10, 0⟩)]) 0 "u" "z"
    [] [("B", ⟨"y", some 10, 0⟩)] ⟨"x", some 10, 0⟩
    (by decide) (by decide) (by decide)).2.1 (by decide) rfl
  have h1 := (c10_amended
    (URLCache.mk 10 2 [("A", ⟨"x", some 10, 0⟩), ("B", ⟨"y", some 10, 0⟩)]) 0 "B" "w"
    [("A", ⟨"x", some 10, 0⟩)] [] ⟨"y", some 10, 0⟩
    (by decide) (by decide) (by decide)).1 (by decide) ("A", ⟨"x", some 10, 0⟩) [] rfl
  have h3 := (c10_amended
    (URLCache.mk 10 3 [("A", ⟨"x", some 10, 0⟩), ("B", ⟨"y", some 10, 0⟩)]) 0 "A" "v"
    [] [("B", ⟨"y", some 10, 0⟩)] ⟨"x", some 10, 0⟩
    (by decide) (by decide) (by decide)).2.2 (by decide)
  exact ⟨h2.1.trans (by decide), h1.2.2.2, h3.1.trans (by decide)⟩

